import Mathlib

/-!
Verification development for the feathub `FlinkTableBuilder`
(`src/python/feathub/processors/flink/table_builder/flink_table_builder.py`).

The Python source is shallowly embedded: pure functions become Lean functions,
the mutable per-session cache (`_built_tables`) becomes explicit state passing,
Python exceptions become `Except`, and every call to an external collaborator
(source scan, expression evaluator, window aggregation, joins) is reified as a
constructor of a plan AST (`NativeFlinkTable`) plus an entry in an event trace
(`BuilderEvent`), so that "how many calls were issued" is a provable fact.
Definitions whose code lives outside the given source file (other feathub
modules, pyflink, the Python standard library) are modelled from the spec and
marked as such in their doc comments.
-/

set_option autoImplicit false

namespace Feathub

/-- Semantic feature types (`feathub.common.types.DType`).
Modelled from the spec: the concrete set of scalar types is immaterial here;
only decidable structural equality is used by the builder. -/
inductive DType where
  | int32
  | int64
  | float32
  | float64
  | string
  | boolean
  | timestamp
deriving DecidableEq

/-- Flink-side data types (`pyflink.table.types.DataType`).
Modelled from the spec: an opaque engine type, one per semantic type. -/
inductive FlinkDataType where
  | fInt32
  | fInt64
  | fFloat32
  | fFloat64
  | fString
  | fBoolean
  | fTimestamp
deriving DecidableEq

/-- Modelled from the spec: `feathub.processors.flink.flink_types_utils.to_flink_type`
maps each semantic type to the corresponding Flink type. -/
def to_flink_type : DType → FlinkDataType
  | .int32 => .fInt32
  | .int64 => .fInt64
  | .float32 => .fFloat32
  | .float64 => .fFloat64
  | .string => .fString
  | .boolean => .fBoolean
  | .timestamp => .fTimestamp

/-- Modelled from the spec:
`feathub.processors.flink.table_builder.flink_table_builder_constants.EVENT_TIME_ATTRIBUTE_NAME`,
the name of the internal synthetic event-time column carried by every
compiled intermediate table. -/
def EVENT_TIME_ATTRIBUTE_NAME : String := "__event_time__"

/-- `ExpressionTransform`: an uninterpreted expression string. -/
structure ExpressionTransform where
  expr : String
deriving DecidableEq

/-- `OverWindowTransform`: unbounded-preceding per-partition running aggregate.
Field set modelled from the spec (expression, aggregation function and the
window shape parameters: group-by keys, window size, row limit). -/
structure OverWindowTransform where
  expr : String
  agg_func : String
  group_by_keys : List String
  window_size : Option Nat
  limit : Option Nat
deriving DecidableEq

/-- `SlidingWindowTransform`: periodic aggregation on a grid determined by
`window_size` / `step_size` (durations modelled as natural numbers of
milliseconds). -/
structure SlidingWindowTransform where
  expr : String
  agg_func : String
  group_by_keys : List String
  window_size : Nat
  step_size : Nat
deriving DecidableEq

/-- `JoinTransform`: pull `feature_name` from the table registered under
`table_name`, as of the left row's event time. -/
structure JoinTransform where
  table_name : String
  feature_name : String
deriving DecidableEq

/-- The transform attached to a feature.  The Python dispatcher tests
`isinstance` against the four known transform classes and raises on anything
else; the `unknown` constructor represents any other `Transform` subclass so
that the fallback branch of the dispatcher stays reachable. -/
inductive Transform where
  | expression (t : ExpressionTransform)
  | overWindow (t : OverWindowTransform)
  | slidingWindow (t : SlidingWindowTransform)
  | join (t : JoinTransform)
  | unknown (typeName : String)
deriving DecidableEq

/-- `feathub.feature_views.feature.Feature`: a named, typed derived column with
a transform, optional keys and an ordered list of input features.  Equality is
structural, as for the Python value objects. -/
inductive Feature where
  | mk (name : String) (dtype : DType) (transform : Transform)
       (keys : Option (List String)) (input_features : List Feature)

mutual

/-- Structural equality of features, mirroring the field-wise `__eq__` of the
Python value object. -/
def Feature.beq : Feature → Feature → Bool
  | .mk n1 d1 t1 k1 i1, .mk n2 d2 t2 k2 i2 =>
    n1 == n2 && d1 == d2 && t1 == t2 && k1 == k2 && Feature.beqList i1 i2

/-- Structural equality of feature lists. -/
def Feature.beqList : List Feature → List Feature → Bool
  | [], [] => true
  | a :: as, b :: bs => Feature.beq a b && Feature.beqList as bs
  | _, _ => false

end

mutual

theorem Feature.beq_iff : ∀ a b : Feature, Feature.beq a b = true ↔ a = b
  | .mk n1 d1 t1 k1 i1, .mk n2 d2 t2 k2 i2 => by
    simp only [Feature.beq, Bool.and_eq_true, beq_iff_eq, Feature.mk.injEq]
    constructor
    · rintro ⟨⟨⟨⟨h1, h2⟩, h3⟩, h4⟩, h5⟩
      exact ⟨h1, h2, h3, h4, (Feature.beqList_iff i1 i2).mp h5⟩
    · rintro ⟨h1, h2, h3, h4, h5⟩
      exact ⟨⟨⟨⟨h1, h2⟩, h3⟩, h4⟩, (Feature.beqList_iff i1 i2).mpr h5⟩

theorem Feature.beqList_iff : ∀ as bs : List Feature, Feature.beqList as bs = true ↔ as = bs
  | [], [] => by simp [Feature.beqList]
  | [], _ :: _ => by simp [Feature.beqList]
  | _ :: _, [] => by simp [Feature.beqList]
  | a :: as, b :: bs => by
    simp only [Feature.beqList, Bool.and_eq_true, List.cons.injEq]
    exact and_congr (Feature.beq_iff a b) (Feature.beqList_iff as bs)

end

instance : DecidableEq Feature := fun a b =>
  decidable_of_iff (Feature.beq a b = true) (Feature.beq_iff a b)

def Feature.name : Feature → String
  | .mk n _ _ _ _ => n

def Feature.dtype : Feature → DType
  | .mk _ d _ _ _ => d

def Feature.transform : Feature → Transform
  | .mk _ _ t _ _ => t

def Feature.keys : Feature → Option (List String)
  | .mk _ _ _ k _ => k

def Feature.input_features : Feature → List Feature
  | .mk _ _ _ _ ins => ins

mutual

/-- All transitive inputs of a feature: its direct `input_features` together
with their transitive inputs.  This is the notion used by the spec sentence
"all of its transitive `input_features`"; it is a specification-side
definition, not a translation of source code. -/
def Feature.transitiveInputs : Feature → List Feature
  | .mk _ _ _ _ ins => ins ++ Feature.transitiveInputsList ins

/-- Transitive inputs of every feature in a list, concatenated. -/
def Feature.transitiveInputsList : List Feature → List Feature
  | [] => []
  | f :: fs => Feature.transitiveInputs f ++ Feature.transitiveInputsList fs

end

/-- `feathub.table.table_descriptor.TableDescriptor` and its variants.
`featureTable` stands for any `FeatureTable` (physical source) with its
declared schema field names; `derivedFeatureView` / `slidingFeatureView` are
the two feature-view variants compiled by the builder.  A feature view whose
`source` attribute is still a registry name string (Python
`Union[str, TableDescriptor]`) is represented with a `sourceNameRef` source,
which is what `is_unresolved` tests.  `otherDescriptor` represents any other
`TableDescriptor` subclass, keeping the builder's fallback branch reachable.
Equality is structural, as for the Python value objects. -/
inductive TableDescriptor where
  | featureTable (name : String) (schemaFieldNames : List String)
      (timestampField : Option String) (timestampFormat : String)
  | derivedFeatureView (name : String) (source : TableDescriptor)
      (features : List Feature) (keepSourceFields : Bool)
      (timestampField : Option String) (timestampFormat : String)
  | slidingFeatureView (name : String) (source : TableDescriptor)
      (features : List Feature) (keepSourceFields : Bool)
      (timestampField : Option String) (timestampFormat : String)
  | sourceNameRef (name : String)
  | otherDescriptor (name : String) (timestampField : Option String)
deriving DecidableEq

/-- The identity key of a descriptor within a session. -/
def TableDescriptor.name : TableDescriptor → String
  | .featureTable n _ _ _ => n
  | .derivedFeatureView n _ _ _ _ _ => n
  | .slidingFeatureView n _ _ _ _ _ => n
  | .sourceNameRef n => n
  | .otherDescriptor n _ => n

/-- `TableDescriptor.timestamp_field`. -/
def TableDescriptor.timestamp_field : TableDescriptor → Option String
  | .featureTable _ _ ts _ => ts
  | .derivedFeatureView _ _ _ _ ts _ => ts
  | .slidingFeatureView _ _ _ _ ts _ => ts
  | .sourceNameRef _ => none
  | .otherDescriptor _ ts => ts

/-- `TableDescriptor.timestamp_format`. -/
def TableDescriptor.timestamp_format : TableDescriptor → String
  | .featureTable _ _ _ fmt => fmt
  | .derivedFeatureView _ _ _ _ _ fmt => fmt
  | .slidingFeatureView _ _ _ _ _ fmt => fmt
  | .sourceNameRef _ => "epoch"
  | .otherDescriptor _ _ => "epoch"

/-- Python `isinstance(features, FeatureView)`: the two feature-view variants. -/
def TableDescriptor.isFeatureView : TableDescriptor → Bool
  | .derivedFeatureView .. => true
  | .slidingFeatureView .. => true
  | _ => false

/-- Modelled from the spec: `FeatureView.is_unresolved` holds when the view's
source is still a registry name string rather than a resolved descriptor. -/
def TableDescriptor.is_unresolved : TableDescriptor → Bool
  | .derivedFeatureView _ src _ _ _ _ => match src with
    | .sourceNameRef _ => true
    | _ => false
  | .slidingFeatureView _ src _ _ _ _ => match src with
    | .sourceNameRef _ => true
    | _ => false
  | _ => false

/-- Modelled from the spec: `FeatureView.get_resolved_features` returns the
view's declared features (already resolved to `Feature` objects); other
descriptor kinds declare no features. -/
def TableDescriptor.get_resolved_features : TableDescriptor → List Feature
  | .derivedFeatureView _ _ fs _ _ _ => fs
  | .slidingFeatureView _ _ fs _ _ _ => fs
  | _ => []

/-- Modelled from the spec: `TableDescriptor.get_feature` looks a declared
feature up by name. -/
def TableDescriptor.get_feature (d : TableDescriptor) (featureName : String) : Option Feature :=
  d.get_resolved_features.find? (fun f => f.name == featureName)

/-- Modelled from the spec: `FeatureView.get_output_fields` — the view's
declared output-field contract: the source passthrough fields (when the view
keeps them) followed by the declared feature names, first occurrence kept. -/
def TableDescriptor.get_output_fields (d : TableDescriptor) (sourceFields : List String) : List String :=
  match d with
  | .derivedFeatureView _ _ fs keepSF _ _ =>
    fs.foldl (fun acc f => if f.name ∈ acc then acc else acc ++ [f.name])
      (if keepSF then sourceFields else [])
  | .slidingFeatureView _ _ fs keepSF _ _ =>
    fs.foldl (fun acc f => if f.name ∈ acc then acc else acc ++ [f.name])
      (if keepSF then sourceFields else [])
  | _ => sourceFields

/-- Modelled from the spec:
`feathub.processors.flink.table_builder.over_window_utils.OverWindowDescriptor.from_over_window_transform`
extracts the value-equality window-shape key used to batch over-window
features. -/
structure OverWindowDescriptor where
  window_size : Option Nat
  limit : Option Nat
  group_by_keys : List String
deriving DecidableEq

def OverWindowDescriptor.from_over_window_transform (t : OverWindowTransform) : OverWindowDescriptor :=
  ⟨t.window_size, t.limit, t.group_by_keys⟩

/-- Modelled from the spec:
`feathub.processors.flink.table_builder.sliding_window_utils.SlidingWindowDescriptor.from_sliding_window_transform`. -/
structure SlidingWindowDescriptor where
  window_size : Nat
  step_size : Nat
  group_by_keys : List String
deriving DecidableEq

def SlidingWindowDescriptor.from_sliding_window_transform (t : SlidingWindowTransform) : SlidingWindowDescriptor :=
  ⟨t.window_size, t.step_size, t.group_by_keys⟩

/-- Modelled from the spec:
`feathub.processors.flink.table_builder.aggregation_utils.AggregationFieldDescriptor`,
derived from a windowed feature: output field name, expression, aggregation
function and result type. -/
structure AggregationFieldDescriptor where
  field_name : String
  expr : String
  agg_func : String
  field_data_type : FlinkDataType
deriving DecidableEq

/-- Modelled from the spec: `AggregationFieldDescriptor.from_feature` reads the
descriptor off a feature whose transform is an over-window or sliding-window
transform (the only call sites in the builder). -/
def AggregationFieldDescriptor.from_feature (f : Feature) : AggregationFieldDescriptor :=
  match f.transform with
  | .overWindow t => ⟨f.name, t.expr, t.agg_func, to_flink_type f.dtype⟩
  | .slidingWindow t => ⟨f.name, t.expr, t.agg_func, to_flink_type f.dtype⟩
  | _ => ⟨f.name, "", "", to_flink_type f.dtype⟩

/-- Typed default value for a sliding-window aggregate cell absent from a grid
point.  Modelled from the spec: 0 for count/sum-like aggregations, null
otherwise. -/
inductive AggDefaultValue where
  | intZero
  | floatZero
  | nullValue
deriving DecidableEq

/-- Modelled from the spec:
`feathub.processors.flink.table_builder.aggregation_utils.get_default_value_and_type`. -/
def get_default_value_and_type (d : AggregationFieldDescriptor) : AggDefaultValue × FlinkDataType :=
  if d.agg_func == "COUNT" then (.intZero, d.field_data_type)
  else if d.agg_func == "SUM" then
    (if d.field_data_type == .fFloat32 || d.field_data_type == .fFloat64
     then .floatZero else .intZero, d.field_data_type)
  else (.nullValue, d.field_data_type)

/-- Modelled from the spec (source lines 489-500 give the builder's own copy
`_get_feature_valid_time`): the staleness bound of a pulled join field — the
step size of the right feature's sliding-window transform when the right
descriptor is a sliding feature view, otherwise none. -/
def get_feature_valid_time (table_descriptor : TableDescriptor) (featureName : String) : Option Nat :=
  match table_descriptor with
  | .slidingFeatureView .. =>
    match table_descriptor.get_feature featureName with
    | some f =>
      match f.transform with
      | .slidingWindow t => some t.step_size
      | _ => none
    | none => none
  | _ => none

/-- Modelled from the spec:
`feathub.processors.flink.table_builder.join_utils.JoinFieldDescriptor` — the
per-field role inside a join batch: a passthrough field has no valid time, a
pulled value field may carry one. -/
structure JoinFieldDescriptor where
  field_name : String
  valid_time : Option Nat
deriving DecidableEq

def JoinFieldDescriptor.from_field_name (fieldName : String) : JoinFieldDescriptor :=
  ⟨fieldName, none⟩

def JoinFieldDescriptor.from_table_descriptor_and_field_name
    (d : TableDescriptor) (fieldName : String) : JoinFieldDescriptor :=
  ⟨fieldName, get_feature_valid_time d fieldName⟩

/-- A Python `datetime.datetime` value (naive, as used by `build`'s
`start_datetime` / `end_datetime` parameters), and likewise a Flink
`TIMESTAMP` value of the internal event-time column. -/
structure Datetime where
  year : Nat
  month : Nat
  day : Nat
  hour : Nat
  minute : Nat
  second : Nat
  microsecond : Nat
deriving DecidableEq

/-- Chronological ordering key.  Faithful to the field-wise (lexicographic)
order of calendar datetimes whenever the fields are in their calendar ranges
(month 1-12, day 1-31, hour < 24, minute, second < 60, microsecond < 10^6). -/
def Datetime.toMicros (dt : Datetime) : Nat :=
  ((((((dt.year * 13 + dt.month) * 32 + dt.day) * 24 + dt.hour) * 60 + dt.minute) * 60
      + dt.second) * 1000000) + dt.microsecond

/-- Modelled from the spec and the Python / Flink semantics of the composition
`datetime.strftime("%Y-%m-%d %H:%M:%S")` followed by `lit(...).to_timestamp`:
the format string has no sub-second directive, so the resulting timestamp
literal is the given datetime with its microsecond component discarded. -/
def strftimeSecondsToTimestamp (dt : Datetime) : Datetime :=
  { dt with microsecond := 0 }

/-- A pandas `DataFrame` argument, reduced to what the builder observes of it:
its column names. -/
structure DataFrame where
  columns : List String
deriving DecidableEq

/-- The compiled lazy Flink table (`pyflink.table.Table`), reified as the plan
AST the builder constructs: every external table-producing call the builder
issues becomes one constructor.  The externals themselves (pyflink operators
and the feathub `*_utils` helpers) are out of scope; only the schema each one
exposes is modelled, in `getFieldNames` below. -/
inductive NativeFlinkTable where
  | fromPandas (df : DataFrame)
  | fromSource (descriptorName : String) (fields : List String)
  | addOrReplaceColumns (t : NativeFlinkTable) (sqlExpr : String)
      (castType : FlinkDataType) (fieldName : String)
  | addColumns (t : NativeFlinkTable) (sqlExpr : String) (fieldName : String)
  | select (t : NativeFlinkTable) (fields : List String)
  | dropColumns (t : NativeFlinkTable) (fieldName : String)
  | filterGeEventTime (t : NativeFlinkTable) (bound : Datetime)
  | filterLtEventTime (t : NativeFlinkTable) (bound : Datetime)
  | overWindowAgg (t : NativeFlinkTable) (desc : OverWindowDescriptor)
      (aggs : List AggregationFieldDescriptor)
  | temporalJoin (left : NativeFlinkTable) (right : NativeFlinkTable)
      (keys : List String) (fieldDescriptors : List (String × JoinFieldDescriptor))
  | slidingWindowAgg (t : NativeFlinkTable) (desc : SlidingWindowDescriptor)
      (aggs : List AggregationFieldDescriptor)
  | fullOuterJoinDefaults (left : NativeFlinkTable) (right : NativeFlinkTable)
      (keys : List String) (defaults : List (String × (AggDefaultValue × FlinkDataType)))
  | joinOnKey (keyTable : NativeFlinkTable) (t : NativeFlinkTable) (keys : List String)
deriving DecidableEq

/-- `table.get_schema().get_field_names()`.  For the builder's own operations
(`select`, `drop_columns`, `add_or_replace_columns`, filters) this is the
documented pyflink schema; for the external collaborator calls it is the
schema promised by the collaborator contracts of the spec (scan carries the
source schema, a window aggregation adds one column per aggregation
descriptor, an as-of join adds the pulled right fields, a sliding aggregation
is keyed by group keys and emission time, a full outer join unions fields, an
equality semi-join keeps the probed table's fields). -/
def NativeFlinkTable.getFieldNames : NativeFlinkTable → List String
  | .fromPandas df => df.columns
  | .fromSource _ fields => fields
  | .addOrReplaceColumns t _ _ fieldName =>
    if fieldName ∈ t.getFieldNames then t.getFieldNames else t.getFieldNames ++ [fieldName]
  | .addColumns t _ fieldName => t.getFieldNames ++ [fieldName]
  | .select _ fields => fields
  | .dropColumns t fieldName => t.getFieldNames.filter (fun f => f ≠ fieldName)
  | .filterGeEventTime t _ => t.getFieldNames
  | .filterLtEventTime t _ => t.getFieldNames
  | .overWindowAgg t _ aggs => t.getFieldNames ++ aggs.map (fun a => a.field_name)
  | .temporalJoin left _ _ fieldDescriptors =>
    left.getFieldNames
      ++ (fieldDescriptors.map Prod.fst).filter (fun f => f ∉ left.getFieldNames)
  | .slidingWindowAgg _ desc aggs =>
    desc.group_by_keys ++ aggs.map (fun a => a.field_name) ++ [EVENT_TIME_ATTRIBUTE_NAME]
  | .fullOuterJoinDefaults left right _ _ =>
    left.getFieldNames ++ right.getFieldNames.filter (fun f => f ∉ left.getFieldNames)
  | .joinOnKey _ t _ => t.getFieldNames

/-- A data row, reduced to the only attribute the verified operations inspect:
the value of the internal event-time column. -/
structure TableRow where
  eventTime : Datetime
deriving DecidableEq

/-- Row semantics of the event-time range filters: interprets the filter nodes
stacked on top of a table whose rows are `rows`.  A `filter` keeps exactly the
rows satisfying its predicate (the pyflink `Table.filter` contract); every
other node is treated as the row source. -/
def filteredRows : NativeFlinkTable → List TableRow → List TableRow
  | .filterGeEventTime t bound, rows =>
    (filteredRows t rows).filter (fun r => bound.toMicros ≤ r.eventTime.toMicros)
  | .filterLtEventTime t bound, rows =>
    (filteredRows t rows).filter (fun r => r.eventTime.toMicros < bound.toMicros)
  | _, rows => rows

/-- The exceptions raised by the builder: `FeathubException`,
`FeathubTransformationException`, plus two constructors for behaviours outside
them — `pythonError` for a raw Python failure (`KeyError`, `AttributeError`)
and `recursionLimit` standing for the unbounded recursion through named
references that the code does not guard against (the fuel of the embedding). -/
inductive FeathubError where
  | feathubException (msg : String)
  | feathubTransformationException (msg : String)
  | pythonError (msg : String)
  | recursionLimit
deriving DecidableEq

/-- One call to an external table-producing collaborator, in issue order.  The
trace makes "exactly one aggregation / join call per batch" and "no
recomputation on a cache hit" provable statements. -/
inductive BuilderEvent where
  | fromPandasCall
  | sourceScanCall (descriptorName : String)
  | expressionCall (expr : String) (fieldName : String)
  | overWindowCall (desc : OverWindowDescriptor) (aggs : List AggregationFieldDescriptor)
  | temporalJoinCall (rightTableName : String) (keys : List String)
      (projectedRightFields : List String)
  | slidingWindowCall (desc : SlidingWindowDescriptor) (aggs : List AggregationFieldDescriptor)
  | fullOuterJoinCall (keys : List String)
  | equalityJoinCall (keys : List String)
deriving DecidableEq

section AList

variable {K : Type} {V : Type} [DecidableEq K]

/-- Insertion-ordered association list, the embedding of a Python `dict`:
lookup (`d.get(k)` / `d[k]`). -/
def alistLookup : List (K × V) → K → Option V
  | [], _ => none
  | (k', v') :: rest, k => if k = k' then some v' else alistLookup rest k

/-- Python `d[k] = v`: replace in place if the key is present, else append. -/
def alistInsert : List (K × V) → K → V → List (K × V)
  | [], k, v => [(k, v)]
  | (k', v') :: rest, k, v =>
    if k = k' then (k, v) :: rest else (k', v') :: alistInsert rest k v

/-- Python `d.setdefault(k, dflt)` followed by in-place mutation of the looked
up value: replace the value at `k` by `f (some old)`, or append `(k, f none)`. -/
def alistUpsert : List (K × V) → K → (Option V → V) → List (K × V)
  | [], k, f => [(k, f none)]
  | (k', v') :: rest, k, f =>
    if k = k' then (k, f (some v')) :: rest else (k', v') :: alistUpsert rest k f

/-- The key list of a Python dict, in insertion order (`d.keys()`). -/
def alistKeys (m : List (K × V)) : List K := m.map Prod.fst

/-- `d.setdefault(k, []).append(v)`. -/
def dictListAppend (m : List (K × List V)) (k : K) (v : V) : List (K × List V) :=
  alistUpsert m k (fun o => o.getD [] ++ [v])

/-- First-occurrence deduplication; models building a Python `set` from a list
(set iteration order is unspecified in Python, fixed here as first occurrence;
no verified statement depends on that order). -/
def dedupFirst : List K → List K
  | [] => []
  | k :: rest => k :: (dedupFirst rest).filter (fun k' => k' ≠ k)

end AList

/-- Static parts of the exception messages raised by the builder (the dynamic
f-string interpolations of the Python messages are elided; the static parts
are pairwise distinct, which is all the theorems rely on). -/
def msgUnresolvedView : String :=
  "Trying to convert a unresolved FeatureView to native Flink table."

def msgConflictingDescriptor : String :=
  "Encounter different TableDescriptor with same name."

def msgUnsupportedDescriptorType : String :=
  "Unsupported type for the given features."

def msgKeyNotInTable : String :=
  "Given key not in the table fields."

def msgMissingTimestampForRange : String :=
  "Feature is missing timestamp_field. It cannot be ranged by start_datetime."

def msgOverWindowNeedsTimestamp : String :=
  "FeatureView must have timestamp field for OverWindowTransform."

def msgSlidingWindowNeedsTimestamp : String :=
  "FeatureView must have timestamp field for SlidingWindowTransform."

def msgJoinWithoutKey : String :=
  "FlinkProcessor cannot join feature without key."

def msgSourceMissingJoinKeys : String :=
  "Source table doesn't have the keys of the Feature to join."

def msgJoinRightNeedsTimestamp : String :=
  "FlinkProcessor cannot join with table descriptor without timestamp field."

def msgUnsupportedTransformation : String :=
  "Unsupported transformation type for feature."

def msgRegistryMiss : String :=
  "Table descriptor is not found in the registry."

def msgKeyErrorDescriptors : String :=
  "KeyError: descriptors_by_names has no entry for the join table name."

def msgKeyErrorBuiltTables : String :=
  "KeyError: _built_tables has no entry for the descriptor name."

/-- The argument union `Union[TableDescriptor, pd.DataFrame]` of `_get_table`. -/
inductive TableLike where
  | dataFrame (df : DataFrame)
  | descriptor (d : TableDescriptor)
deriving DecidableEq

/-- The mutable per-session state of a `FlinkTableBuilder`: the
`_built_tables` cache mapping a descriptor name to the descriptor and its
compiled table. -/
structure BuilderState where
  builtTables : List (String × (TableDescriptor × NativeFlinkTable))
deriving DecidableEq

/-- The outcome of a builder step: the returned value or the raised exception,
the session state after the step, and the trace of external calls issued. -/
structure BuildResult (α : Type) where
  result : Except FeathubError α
  state : BuilderState
  events : List BuilderEvent

instance {ε α : Type} [DecidableEq ε] [DecidableEq α] : DecidableEq (Except ε α)
  | .ok a, .ok b => decidable_of_iff (a = b) (by simp)
  | .error a, .error b => decidable_of_iff (a = b) (by simp)
  | .ok _, .error _ => isFalse (by simp)
  | .error _, .ok _ => isFalse (by simp)

instance {α : Type} [DecidableEq α] : DecidableEq (BuildResult α) := fun a b =>
  decidable_of_iff (a.result = b.result ∧ a.state = b.state ∧ a.events = b.events)
    (by cases a; cases b; simp)

/-- The builder's immutable collaborators: the registry (`Registry`,
`get_features` looks a descriptor up by name). -/
structure BuilderContext where
  registry : List (String × TableDescriptor)

/-- Modelled from the spec:
`feathub.processors.flink.table_builder.source_sink_utils.get_table_from_source`
scans a source table; the scanned table carries the source's schema plus the
internal event-time column derived from its timestamp field when one is
declared. -/
def get_table_from_source (d : TableDescriptor) : NativeFlinkTable :=
  match d with
  | .featureTable name fields ts _ =>
    .fromSource name (fields ++ (if ts.isSome then [EVENT_TIME_ATTRIBUTE_NAME] else []))
  | _ => .fromSource d.name []

/-- Inner loop of `_get_dependent_features`: append each input feature not yet
present (source lines 436-438). -/
def add_input_features : List Feature → List Feature → List Feature
  | acc, [] => acc
  | acc, inp :: rest => add_input_features (if inp ∈ acc then acc else acc ++ [inp]) rest

/-- Outer loop of `_get_dependent_features` (source lines 434-441). -/
def dependent_features_aux : List Feature → List Feature → List Feature
  | acc, [] => acc
  | acc, f :: fs =>
    dependent_features_aux
      (let acc1 := add_input_features acc f.input_features
       if f ∈ acc1 then acc1 else acc1 ++ [f]) fs

/-- `FlinkTableBuilder._get_dependent_features` (source lines 432-441). -/
def get_dependent_features (feature_view : TableDescriptor) : List Feature :=
  dependent_features_aux [] feature_view.get_resolved_features

/-- `FlinkTableBuilder._evaluate_expression_transform` (source lines 443-455). -/
def evaluate_expression_transform (source_table : NativeFlinkTable)
    (transform : ExpressionTransform) (result_field_name : String)
    (result_type : DType) : NativeFlinkTable :=
  .addOrReplaceColumns source_table transform.expr (to_flink_type result_type)
    result_field_name

/-- The per-(table name, join keys) map of field descriptors accumulated by
the dispatch loop (`right_tables`, source lines 230-232). -/
abbrev RightTables :=
  List ((String × List String) × List (String × JoinFieldDescriptor))

/-- The per-window-shape lists of aggregation descriptors accumulated by the
dispatch loop (`window_agg_map`, source lines 207-209). -/
abbrev WindowAggMap := List (OverWindowDescriptor × List AggregationFieldDescriptor)

/-- The context the derived-view dispatch loop reads but never writes: the
view's timestamp field, the source table's schema (join keys are checked
against it) and the registry descriptors resolved for the join table names. -/
structure DerivedDispatchCtx where
  viewTimestampField : Option String
  sourceFieldNames : List String
  descriptorsByNames : List (String × TableDescriptor)

/-- The accumulators of the dispatch loop of
`_get_table_from_derived_feature_view` (source lines 234-303): the growing
table, the two batching maps, and the trace of calls issued so far. -/
structure DispatchState where
  tmpTable : NativeFlinkTable
  windowAggMap : WindowAggMap
  rightTables : RightTables
  events : List BuilderEvent
deriving DecidableEq

/-- The dispatch state at loop entry (`tmp_table = source_table`, both maps
empty). -/
def initialDispatchState (source_table : NativeFlinkTable) : DispatchState :=
  ⟨source_table, [], [], []⟩

/-- The data of one dispatched join feature, as written into `right_tables`
by source lines 277-298. -/
structure JoinDispatch where
  tableName : String
  joinKeys : List String
  rightTimestampField : String
  featureName : String
  rightDescriptor : TableDescriptor
deriving DecidableEq

/-- The four in-place updates of one batch's field-descriptor map performed by
source lines 280-298: one passthrough descriptor per join key, one for the
right table's timestamp field, one for the internal event-time column, and the
pulled value field. -/
def joinDispatchInnerUpdate (jd : JoinDispatch)
    (o : Option (List (String × JoinFieldDescriptor))) :
    List (String × JoinFieldDescriptor) :=
  let inner := o.getD []
  let inner := jd.joinKeys.foldl
    (fun m k => alistInsert m k (JoinFieldDescriptor.from_field_name k)) inner
  let inner := alistInsert inner jd.rightTimestampField
    (JoinFieldDescriptor.from_field_name jd.rightTimestampField)
  let inner := alistInsert inner EVENT_TIME_ATTRIBUTE_NAME
    (JoinFieldDescriptor.from_field_name EVENT_TIME_ATTRIBUTE_NAME)
  alistInsert inner jd.featureName
    (JoinFieldDescriptor.from_table_descriptor_and_field_name
      jd.rightDescriptor jd.featureName)

/-- Source lines 277-298: `right_tables.setdefault((table_name, tuple(keys)),
dict())` followed by the in-place updates of the inner dict. -/
def applyJoinDispatch (rt : RightTables) (jd : JoinDispatch) : RightTables :=
  alistUpsert rt (jd.tableName, jd.joinKeys) (joinDispatchInnerUpdate jd)

/-- One iteration of the dispatch loop of
`_get_table_from_derived_feature_view` (source lines 234-303): skip features
already present as columns, evaluate expressions immediately, accumulate
over-window and join features into their batching maps, reject anything else. -/
def processDerivedFeature (c : DerivedDispatchCtx) (st : DispatchState)
    (f : Feature) : Except FeathubError DispatchState :=
  if f.name ∈ st.tmpTable.getFieldNames then .ok st
  else
    match f.transform with
    | .expression e =>
      .ok { st with
        tmpTable := evaluate_expression_transform st.tmpTable e f.name f.dtype,
        events := st.events ++ [.expressionCall e.expr f.name] }
    | .overWindow t =>
      match c.viewTimestampField with
      | none => .error (.feathubException msgOverWindowNeedsTimestamp)
      | some _ =>
        .ok { st with
          windowAggMap := dictListAppend st.windowAggMap
            (OverWindowDescriptor.from_over_window_transform t)
            (AggregationFieldDescriptor.from_feature f) }
    | .join j =>
      match f.keys with
      | none => .error (.feathubException msgJoinWithoutKey)
      | some ks =>
        if ks.all (fun k => decide (k ∈ c.sourceFieldNames)) then
          match alistLookup c.descriptorsByNames j.table_name with
          | none => .error (.pythonError msgKeyErrorDescriptors)
          | some rd =>
            match rd.timestamp_field with
            | none => .error (.feathubException msgJoinRightNeedsTimestamp)
            | some rts =>
              .ok { st with
                rightTables := applyJoinDispatch st.rightTables
                  ⟨j.table_name, ks, rts, j.feature_name, rd⟩ }
        else .error (.feathubException msgSourceMissingJoinKeys)
    | .slidingWindow _ =>
      .error (.feathubTransformationException msgUnsupportedTransformation)
    | .unknown _ =>
      .error (.feathubTransformationException msgUnsupportedTransformation)

/-- The dispatch loop over the dependent features (`for feature in
dependent_features`, source line 234), stopping at the first raised
exception. -/
def processDerivedFeatures (c : DerivedDispatchCtx) :
    List Feature → DispatchState → Except FeathubError DispatchState
  | [], st => .ok st
  | f :: fs, st =>
    match processDerivedFeature c st f with
    | .error e => .error e
    | .ok st' => processDerivedFeatures c fs st'

/-- Source lines 305-310: one `evaluate_over_window_transform` call per entry
of `window_agg_map`, in insertion order, each receiving the entry's full
descriptor list.  Returns the resulting table and the calls issued. -/
def applyOverWindowAggs :
    WindowAggMap → NativeFlinkTable → NativeFlinkTable × List BuilderEvent
  | [], t => (t, [])
  | (d, aggs) :: rest, t =>
    let (tf, evs) := applyOverWindowAggs rest (.overWindowAgg t d aggs)
    (tf, .overWindowCall d aggs :: evs)

/-- Source lines 312-328: one `temporal_join` call per entry of
`right_tables`, in insertion order; the right table is first projected with
`select` to the keys of the entry's field-descriptor map. -/
def applyTemporalJoins (tableByNames : List (String × NativeFlinkTable)) :
    RightTables → NativeFlinkTable →
    Except FeathubError (NativeFlinkTable × List BuilderEvent)
  | [], t => .ok (t, [])
  | ((rightTableName, ks), fieldDescriptors) :: rest, t =>
    match alistLookup tableByNames rightTableName with
    | none => .error (.pythonError msgKeyErrorBuiltTables)
    | some rt0 =>
      let projected := NativeFlinkTable.select rt0 (alistKeys fieldDescriptors)
      match applyTemporalJoins tableByNames rest
        (.temporalJoin t projected ks fieldDescriptors) with
      | .error e => .error e
      | .ok (tf, evs) =>
        .ok (tf, .temporalJoinCall rightTableName ks (alistKeys fieldDescriptors) :: evs)

/-- Replay of the dispatch loop that records only the (window shape,
aggregation descriptor) pairs appended to `window_agg_map`, in order.  Used to
state which features a successful dispatch accumulated; branches that raise in
`processDerivedFeature` are irrelevant under a success hypothesis and simply
recurse here. -/
def owDispatches (c : DerivedDispatchCtx) :
    List Feature → NativeFlinkTable →
    List (OverWindowDescriptor × AggregationFieldDescriptor)
  | [], _ => []
  | f :: fs, tmp =>
    if f.name ∈ tmp.getFieldNames then owDispatches c fs tmp
    else
      match f.transform with
      | .expression e =>
        owDispatches c fs (evaluate_expression_transform tmp e f.name f.dtype)
      | .overWindow t =>
        (OverWindowDescriptor.from_over_window_transform t,
          AggregationFieldDescriptor.from_feature f) :: owDispatches c fs tmp
      | _ => owDispatches c fs tmp

/-- Replay of the dispatch loop that records only the join dispatches written
into `right_tables`, in order (same caveat as `owDispatches`). -/
def jdDispatches (c : DerivedDispatchCtx) :
    List Feature → NativeFlinkTable → List JoinDispatch
  | [], _ => []
  | f :: fs, tmp =>
    if f.name ∈ tmp.getFieldNames then jdDispatches c fs tmp
    else
      match f.transform with
      | .expression e =>
        jdDispatches c fs (evaluate_expression_transform tmp e f.name f.dtype)
      | .join j =>
        (match f.keys with
         | none => jdDispatches c fs tmp
         | some ks =>
           if ks.all (fun k => decide (k ∈ c.sourceFieldNames)) then
             match alistLookup c.descriptorsByNames j.table_name with
             | none => jdDispatches c fs tmp
             | some rd =>
               match rd.timestamp_field with
               | none => jdDispatches c fs tmp
               | some rts =>
                 ⟨j.table_name, ks, rts, j.feature_name, rd⟩ :: jdDispatches c fs tmp
           else jdDispatches c fs tmp)
      | _ => jdDispatches c fs tmp

/-- Source lines 219-224: resolve each join table name through the registry
(`registry.get_features(name)`, which raises when the name is unknown) and
compile each resolved descriptor through the cache, accumulating
`descriptors_by_names` and `table_by_names`. -/
def registryResolveTables (ctx : BuilderContext)
    (getTableFn : BuilderState → TableLike → BuildResult NativeFlinkTable) :
    List String → BuilderState →
    BuildResult (List (String × TableDescriptor) × List (String × NativeFlinkTable))
  | [], s => ⟨.ok ([], []), s, []⟩
  | n :: rest, s =>
    match alistLookup ctx.registry n with
    | none => ⟨.error (.pythonError msgRegistryMiss), s, []⟩
    | some d =>
      match getTableFn s (.descriptor d) with
      | ⟨.error e, s1, ev1⟩ => ⟨.error e, s1, ev1⟩
      | ⟨.ok t, s1, ev1⟩ =>
        match registryResolveTables ctx getTableFn rest s1 with
        | ⟨.error e, s2, ev2⟩ => ⟨.error e, s2, ev1 ++ ev2⟩
        | ⟨.ok (ds, ts), s2, ev2⟩ =>
          ⟨.ok ((n, d) :: ds, (n, t) :: ts), s2, ev1 ++ ev2⟩

/-- `FlinkTableBuilder._get_output_fields` (source lines 481-487): the view's
declared output fields, with the internal event-time column force-appended
when absent. -/
def get_output_fields (feature_view : TableDescriptor)
    (source_fields : List String) : List String :=
  let output_fields := feature_view.get_output_fields source_fields
  if EVENT_TIME_ATTRIBUTE_NAME ∈ output_fields then output_fields
  else output_fields ++ [EVENT_TIME_ATTRIBUTE_NAME]

/-- `FlinkTableBuilder._get_table_from_derived_feature_view` (source lines
199-333).  `getTableFn` is the recursive entry point `_get_table`, passed
explicitly (the fuelled `get_table` below instantiates it). -/
def get_table_from_derived_feature_view (ctx : BuilderContext)
    (getTableFn : BuilderState → TableLike → BuildResult NativeFlinkTable)
    (s : BuilderState) (feature_view : TableDescriptor) : BuildResult NativeFlinkTable :=
  match feature_view with
  | .derivedFeatureView _ source _ _ tsField _ =>
    match getTableFn s (.descriptor source) with
    | ⟨.error e, s1, ev1⟩ => ⟨.error e, s1, ev1⟩
    | ⟨.ok source_table, s1, ev1⟩ =>
      let source_fields := source_table.getFieldNames
      let dependent_features := get_dependent_features feature_view
      let table_names := dedupFirst (feature_view.get_resolved_features.filterMap
        (fun f => match f.transform with
          | .join j => some j.table_name
          | _ => none))
      match registryResolveTables ctx getTableFn table_names s1 with
      | ⟨.error e, s2, ev2⟩ => ⟨.error e, s2, ev1 ++ ev2⟩
      | ⟨.ok (descriptors_by_names, table_by_names), s2, ev2⟩ =>
        let c : DerivedDispatchCtx := ⟨tsField, source_fields, descriptors_by_names⟩
        match processDerivedFeatures c dependent_features
          (initialDispatchState source_table) with
        | .error e => ⟨.error e, s2, ev1 ++ ev2⟩
        | .ok st =>
          let owr := applyOverWindowAggs st.windowAggMap st.tmpTable
          match applyTemporalJoins table_by_names st.rightTables owr.1 with
          | .error e => ⟨.error e, s2, ev1 ++ ev2 ++ st.events ++ owr.2⟩
          | .ok (t2, evJ) =>
            let output_fields := get_output_fields feature_view source_fields
            ⟨.ok (.select t2 output_fields), s2, ev1 ++ ev2 ++ st.events ++ owr.2 ++ evJ⟩
  | _ => ⟨.error (.pythonError msgUnsupportedDescriptorType), s, []⟩

/-- The accumulators of the dispatch loop of
`_get_table_from_sliding_feature_view` (source lines 343-374). -/
structure SlidingDispatchState where
  tmpTable : NativeFlinkTable
  slidingWindowAggMap : List (SlidingWindowDescriptor × List AggregationFieldDescriptor)
  events : List BuilderEvent

/-- One iteration of the dispatch loop of
`_get_table_from_sliding_feature_view` (source lines 348-374). -/
def processSlidingFeature (viewTimestampField : Option String)
    (st : SlidingDispatchState) (f : Feature) :
    Except FeathubError SlidingDispatchState :=
  if f.name ∈ st.tmpTable.getFieldNames then .ok st
  else
    match f.transform with
    | .expression e =>
      .ok { st with
        tmpTable := evaluate_expression_transform st.tmpTable e f.name f.dtype,
        events := st.events ++ [.expressionCall e.expr f.name] }
    | .slidingWindow t =>
      match viewTimestampField with
      | none => .error (.feathubException msgSlidingWindowNeedsTimestamp)
      | some _ =>
        .ok { st with
          slidingWindowAggMap := dictListAppend st.slidingWindowAggMap
            (SlidingWindowDescriptor.from_sliding_window_transform t)
            (AggregationFieldDescriptor.from_feature f) }
    | _ => .error (.feathubTransformationException msgUnsupportedTransformation)

/-- The dispatch loop over the dependent features of a sliding view. -/
def processSlidingFeatures (viewTimestampField : Option String) :
    List Feature → SlidingDispatchState → Except FeathubError SlidingDispatchState
  | [], st => .ok st
  | f :: fs, st =>
    match processSlidingFeature viewTimestampField st f with
    | .error e => .error e
    | .ok st' => processSlidingFeatures viewTimestampField fs st'

/-- Source lines 376-399: one `evaluate_sliding_window_transform` call per
entry of `sliding_window_agg_map`; the per-field typed defaults accumulate
across iterations, and from the second sub-table on each result is merged by a
full outer join on (group keys, event time) with the defaults accumulated so
far. -/
def applySlidingWindowAggs (tmp_table : NativeFlinkTable) :
    List (SlidingWindowDescriptor × List AggregationFieldDescriptor) →
    Option NativeFlinkTable →
    List (String × (AggDefaultValue × FlinkDataType)) →
    Option NativeFlinkTable × List (String × (AggDefaultValue × FlinkDataType))
      × List BuilderEvent
  | [], aggTable, fdv => (aggTable, fdv, [])
  | (wd, aggs) :: rest, aggTable, fdv =>
    let fdv := aggs.foldl
      (fun m a => alistInsert m a.field_name (get_default_value_and_type a)) fdv
    let tmpAgg := NativeFlinkTable.slidingWindowAgg tmp_table wd aggs
    match aggTable with
    | none =>
      let r := applySlidingWindowAggs tmp_table rest (some tmpAgg) fdv
      (r.1, r.2.1, .slidingWindowCall wd aggs :: r.2.2)
    | some prev =>
      let joinKeys := wd.group_by_keys ++ [EVENT_TIME_ATTRIBUTE_NAME]
      let joined := NativeFlinkTable.fullOuterJoinDefaults prev tmpAgg joinKeys fdv
      let r := applySlidingWindowAggs tmp_table rest (some joined) fdv
      (r.1, r.2.1, .slidingWindowCall wd aggs :: .fullOuterJoinCall joinKeys :: r.2.2)

/-- Modelled from the spec: `feathub.common.utils.to_java_date_format`
converts a Python datetime format string into the equivalent Java one. -/
def to_java_date_format (pythonFormat : String) : String :=
  ((((((pythonFormat.replace "%Y" "yyyy").replace "%m" "MM").replace "%d" "dd").replace
    "%H" "HH").replace "%M" "mm").replace "%S" "ss")

/-- Source lines 404-425: after the sliding aggregations, re-derive the view's
declared timestamp field from the internal event-time column, by epoch
conversion or by calendar formatting according to the view's timestamp
format. -/
def deriveTimestampColumn (feature_view : TableDescriptor)
    (tmp_table : NativeFlinkTable) : NativeFlinkTable :=
  match feature_view.timestamp_field with
  | none => tmp_table
  | some tsField =>
    if feature_view.timestamp_format = "epoch" then
      .addColumns tmp_table
        ("UNIX_TIMESTAMP(CAST(`" ++ EVENT_TIME_ATTRIBUTE_NAME ++ "` AS STRING))") tsField
    else
      let javaFmt := (to_java_date_format feature_view.timestamp_format).replace "'" "''"
      .addColumns tmp_table
        ("DATE_FORMAT(`" ++ EVENT_TIME_ATTRIBUTE_NAME ++ "`, '" ++ javaFmt ++ "')") tsField

/-- `FlinkTableBuilder._get_table_from_sliding_feature_view` (source lines
335-430). -/
def get_table_from_sliding_feature_view (_ctx : BuilderContext)
    (getTableFn : BuilderState → TableLike → BuildResult NativeFlinkTable)
    (s : BuilderState) (feature_view : TableDescriptor) : BuildResult NativeFlinkTable :=
  match feature_view with
  | .slidingFeatureView _ source _ _ tsField _ =>
    match getTableFn s (.descriptor source) with
    | ⟨.error e, s1, ev1⟩ => ⟨.error e, s1, ev1⟩
    | ⟨.ok source_table, s1, ev1⟩ =>
      let source_fields := source_table.getFieldNames
      let dependent_features := get_dependent_features feature_view
      match processSlidingFeatures tsField dependent_features
        ⟨source_table, [], []⟩ with
      | .error e => ⟨.error e, s1, ev1⟩
      | .ok st =>
        let r := applySlidingWindowAggs st.tmpTable st.slidingWindowAggMap none []
        let tmp2 := match r.1 with
          | none => st.tmpTable
          | some t => t
        let tmp3 := deriveTimestampColumn feature_view tmp2
        let output_fields := get_output_fields feature_view source_fields
        ⟨.ok (.select tmp3 output_fields), s1, ev1 ++ st.events ++ r.2.2⟩
  | _ => ⟨.error (.pythonError msgUnsupportedDescriptorType), s, []⟩

/-- Cache lookup (`features.name in self._built_tables`). -/
def lookupBuilt (s : BuilderState) (name : String) :
    Option (TableDescriptor × NativeFlinkTable) :=
  alistLookup s.builtTables name

/-- Cache store (`self._built_tables[features.name] = (features, table)`). -/
def insertBuilt (s : BuilderState) (name : String) (d : TableDescriptor)
    (t : NativeFlinkTable) : BuilderState :=
  ⟨alistInsert s.builtTables name (d, t)⟩

/-- `return self._built_tables[features.name][1]` (source line 197). -/
def returnBuilt (s : BuilderState) (name : String) (events : List BuilderEvent) :
    BuildResult NativeFlinkTable :=
  match lookupBuilt s name with
  | some p => ⟨.ok p.2, s, events⟩
  | none => ⟨.error (.pythonError msgKeyErrorBuiltTables), s, events⟩

/-- `FlinkTableBuilder._get_table` (source lines 163-197): pandas frames are
converted directly; descriptors go through the session cache with a conflict
check, then dispatch on the descriptor kind.  The `fuel` argument bounds the
recursion through descriptor references, which the code itself does not guard
(running out of fuel stands for non-termination). -/
def get_table (ctx : BuilderContext) :
    Nat → BuilderState → TableLike → BuildResult NativeFlinkTable
  | 0, s, _ => ⟨.error .recursionLimit, s, []⟩
  | _ + 1, s, .dataFrame df => ⟨.ok (.fromPandas df), s, [.fromPandasCall]⟩
  | fuel + 1, s, .descriptor d =>
    match lookupBuilt s d.name with
    | some (d0, t0) =>
      if d ≠ d0 then ⟨.error (.feathubException msgConflictingDescriptor), s, []⟩
      else ⟨.ok t0, s, []⟩
    | none =>
      match d with
      | .featureTable .. =>
        returnBuilt (insertBuilt s d.name d (get_table_from_source d)) d.name
          [.sourceScanCall d.name]
      | .derivedFeatureView .. =>
        match get_table_from_derived_feature_view ctx (get_table ctx fuel) s d with
        | ⟨.error e, s1, ev⟩ => ⟨.error e, s1, ev⟩
        | ⟨.ok t, s1, ev⟩ => returnBuilt (insertBuilt s1 d.name d t) d.name ev
      | .slidingFeatureView .. =>
        match get_table_from_sliding_feature_view ctx (get_table ctx fuel) s d with
        | ⟨.error e, s1, ev⟩ => ⟨.error e, s1, ev⟩
        | ⟨.ok t, s1, ev⟩ => returnBuilt (insertBuilt s1 d.name d t) d.name ev
      | _ => ⟨.error (.feathubException msgUnsupportedDescriptorType), s, []⟩

/-- `FlinkTableBuilder._filter_table_by_keys` (source lines 145-161). -/
def filter_table_by_keys
    (getTableFn : BuilderState → TableLike → BuildResult NativeFlinkTable)
    (s : BuilderState) (table : NativeFlinkTable) (keys : TableLike) :
    BuildResult NativeFlinkTable :=
  match getTableFn s keys with
  | ⟨.error e, s1, ev⟩ => ⟨.error e, s1, ev⟩
  | ⟨.ok key_table, s1, ev⟩ =>
    if key_table.getFieldNames.all (fun fn => decide (fn ∈ table.getFieldNames)) then
      ⟨.ok (.joinOnKey key_table table key_table.getFieldNames), s1,
        ev ++ [.equalityJoinCall key_table.getFieldNames]⟩
    else ⟨.error (.feathubException msgKeyNotInTable), s1, ev⟩

/-- `FlinkTableBuilder._range_table_by_time` (source lines 457-479): chain an
`event_time >= start` filter and an `event_time < end` filter, each bound
being the corresponding datetime formatted with `"%Y-%m-%d %H:%M:%S"` and
parsed back as a timestamp literal. -/
def range_table_by_time (table : NativeFlinkTable)
    (start_datetime end_datetime : Option Datetime) : NativeFlinkTable :=
  let table := match start_datetime with
    | none => table
    | some sd => NativeFlinkTable.filterGeEventTime table (strftimeSecondsToTimestamp sd)
  match end_datetime with
  | none => table
  | some ed => NativeFlinkTable.filterLtEventTime table (strftimeSecondsToTimestamp ed)

/-- Source lines 132-143: the tail of `build` — apply the optional event-time
range (requiring the descriptor to declare a timestamp field) and strip the
internal event-time column from the returned table when present. -/
def buildRangeAndStrip (features : TableDescriptor) (table : NativeFlinkTable)
    (s : BuilderState) (events : List BuilderEvent)
    (start_datetime end_datetime : Option Datetime) : BuildResult NativeFlinkTable :=
  match
    (if start_datetime.isSome || end_datetime.isSome then
      match features.timestamp_field with
      | none => Except.error (FeathubError.feathubException msgMissingTimestampForRange)
      | some _ => Except.ok (range_table_by_time table start_datetime end_datetime)
    else Except.ok table) with
  | .error e => ⟨.error e, s, events⟩
  | .ok table3 =>
    ⟨.ok (if EVENT_TIME_ATTRIBUTE_NAME ∈ table3.getFieldNames
          then table3.dropColumns EVENT_TIME_ATTRIBUTE_NAME else table3), s, events⟩

/-- `FlinkTableBuilder.build` (source lines 93-143): reject unresolved views,
compile through the cache, apply the optional key semi-filter and event-time
range, and strip the internal event-time column. -/
def build (ctx : BuilderContext) (fuel : Nat) (s : BuilderState)
    (features : TableDescriptor) (keys : Option TableLike)
    (start_datetime end_datetime : Option Datetime) : BuildResult NativeFlinkTable :=
  if features.isFeatureView && features.is_unresolved then
    ⟨.error (.feathubException msgUnresolvedView), s, []⟩
  else
    match get_table ctx fuel s (.descriptor features) with
    | ⟨.error e, s1, ev1⟩ => ⟨.error e, s1, ev1⟩
    | ⟨.ok table, s1, ev1⟩ =>
      match keys with
      | none => buildRangeAndStrip features table s1 ev1 start_datetime end_datetime
      | some k =>
        match filter_table_by_keys (get_table ctx fuel) s1 table k with
        | ⟨.error e, s2, ev2⟩ => ⟨.error e, s2, ev1 ++ ev2⟩
        | ⟨.ok table2, s2, ev2⟩ =>
          buildRangeAndStrip features table2 s2 (ev1 ++ ev2) start_datetime end_datetime

/-! Helper lemmas about the association lists that embed Python dicts. -/

section AListLemmas

variable {K V : Type} [DecidableEq K]

theorem alistInsert_eq_upsert (m : List (K × V)) (k : K) (v : V) :
    alistInsert m k v = alistUpsert m k (fun _ => v) := by
  induction m with
  | nil => rfl
  | cons p rest ih => by_cases h : k = p.1 <;> simp [alistInsert, alistUpsert, h, ih]

theorem alistLookup_upsert_self (m : List (K × V)) (k : K) (f : Option V → V) :
    alistLookup (alistUpsert m k f) k = some (f (alistLookup m k)) := by
  induction m with
  | nil => simp [alistUpsert, alistLookup]
  | cons p rest ih =>
    by_cases h : k = p.1
    · simp [alistUpsert, alistLookup, h]
    · simp [alistUpsert, alistLookup, h, ih]

theorem alistLookup_upsert_ne (m : List (K × V)) (k k' : K) (f : Option V → V)
    (h : k' ≠ k) : alistLookup (alistUpsert m k f) k' = alistLookup m k' := by
  induction m with
  | nil => simp [alistUpsert, alistLookup, h]
  | cons p rest ih =>
    by_cases hk : k = p.1
    · subst hk
      simp [alistUpsert, alistLookup, h]
    · by_cases hk' : k' = p.1
      · simp [alistUpsert, alistLookup, hk, hk']
      · simp [alistUpsert, alistLookup, hk, hk', ih]

theorem alistKeys_upsert_eq (m : List (K × V)) (k : K) (f : Option V → V) :
    alistKeys (alistUpsert m k f) =
      if k ∈ alistKeys m then alistKeys m else alistKeys m ++ [k] := by
  induction m with
  | nil => simp [alistUpsert, alistKeys]
  | cons p rest ih =>
    by_cases h : k = p.1
    · subst h
      simp [alistUpsert, alistKeys]
    · simp only [alistUpsert, if_neg h, alistKeys, List.map_cons] at ih ⊢
      rw [ih]
      by_cases hm : k ∈ List.map Prod.fst rest
      · simp [hm, h, List.mem_cons]
      · simp [hm, h, List.mem_cons]

theorem alistKeys_upsert_nodup (m : List (K × V)) (k : K) (f : Option V → V)
    (h : (alistKeys m).Nodup) : (alistKeys (alistUpsert m k f)).Nodup := by
  rw [alistKeys_upsert_eq]
  by_cases hm : k ∈ alistKeys m
  · simpa [hm] using h
  · simp only [if_neg hm]
    refine List.Nodup.append h (List.nodup_singleton k) ?_
    intro a ha hb
    simp only [List.mem_singleton] at hb
    subst hb
    exact hm ha

theorem mem_alistKeys_upsert_self (m : List (K × V)) (k : K) (f : Option V → V) :
    k ∈ alistKeys (alistUpsert m k f) := by
  rw [alistKeys_upsert_eq]
  by_cases hm : k ∈ alistKeys m <;> simp [hm]

theorem mem_alistKeys_upsert_of_mem (m : List (K × V)) (k k' : K) (f : Option V → V)
    (h : k' ∈ alistKeys m) : k' ∈ alistKeys (alistUpsert m k f) := by
  rw [alistKeys_upsert_eq]
  by_cases hm : k ∈ alistKeys m <;> simp [hm, h]

theorem alistLookup_insert_self (m : List (K × V)) (k : K) (v : V) :
    alistLookup (alistInsert m k v) k = some v := by
  rw [alistInsert_eq_upsert]
  exact alistLookup_upsert_self m k (fun _ => v)

theorem alistLookup_insert_ne (m : List (K × V)) (k k' : K) (v : V) (h : k' ≠ k) :
    alistLookup (alistInsert m k v) k' = alistLookup m k' := by
  rw [alistInsert_eq_upsert]
  exact alistLookup_upsert_ne m k k' (fun _ => v) h

theorem alistKeys_insert_eq (m : List (K × V)) (k : K) (v : V) :
    alistKeys (alistInsert m k v) =
      if k ∈ alistKeys m then alistKeys m else alistKeys m ++ [k] := by
  rw [alistInsert_eq_upsert]
  exact alistKeys_upsert_eq m k (fun _ => v)

theorem alistKeys_insert_nodup (m : List (K × V)) (k : K) (v : V)
    (h : (alistKeys m).Nodup) : (alistKeys (alistInsert m k v)).Nodup := by
  rw [alistInsert_eq_upsert]
  exact alistKeys_upsert_nodup m k (fun _ => v) h

theorem mem_alistKeys_insert_self (m : List (K × V)) (k : K) (v : V) :
    k ∈ alistKeys (alistInsert m k v) := by
  rw [alistInsert_eq_upsert]
  exact mem_alistKeys_upsert_self m k (fun _ => v)

theorem mem_alistKeys_insert_of_mem (m : List (K × V)) (k k' : K) (v : V)
    (h : k' ∈ alistKeys m) : k' ∈ alistKeys (alistInsert m k v) := by
  rw [alistInsert_eq_upsert]
  exact mem_alistKeys_upsert_of_mem m k k' (fun _ => v) h

/-- Entry-wise invariant preservation for `alistUpsert`: if every stored value
satisfies `P`, and the update function sends any permitted old value (or
absence) to a value satisfying `P`, every value after the upsert satisfies
`P`. -/
theorem alistUpsert_forall_values (P : V → Prop) (m : List (K × V)) (k : K)
    (f : Option V → V) (hm : ∀ p ∈ m, P p.2)
    (hf : ∀ o : Option V, (∀ v, o = some v → P v) → P (f o)) :
    ∀ p ∈ alistUpsert m k f, P p.2 := by
  induction m with
  | nil =>
    intro p hp
    simp only [alistUpsert, List.mem_singleton] at hp
    subst hp
    exact hf none (by simp)
  | cons q rest ih =>
    intro p hp
    by_cases h : k = q.1
    · simp only [alistUpsert, if_pos h, List.mem_cons] at hp
      rcases hp with rfl | hp
      · exact hf (some q.2) (by
          intro v hv
          cases hv
          exact hm q (List.mem_cons_self q rest))
      · exact hm p (List.mem_cons_of_mem q hp)
    · simp only [alistUpsert, if_neg h, List.mem_cons] at hp
      rcases hp with rfl | hp
      · exact hm q (List.mem_cons_self q rest)
      · exact ih (fun r hr => hm r (List.mem_cons_of_mem q hr)) p hp

end AListLemmas

/-- The values of the pairs of `ps` carrying key `k`, in order. -/
def pairsValuesAt {K V : Type} [DecidableEq K] (ps : List (K × V)) (k : K) : List V :=
  ps.filterMap (fun p => if p.1 = k then some p.2 else none)

section GroupFoldLemmas

variable {K V : Type} [DecidableEq K]

theorem pairsValuesAt_cons (p : K × V) (ps : List (K × V)) (k : K) :
    pairsValuesAt (p :: ps) k
      = if p.1 = k then p.2 :: pairsValuesAt ps k else pairsValuesAt ps k := by
  simp only [pairsValuesAt, List.filterMap_cons]
  by_cases h : p.1 = k <;> simp [h]

theorem foldl_dictListAppend_lookup_some (ps : List (K × V)) :
    ∀ (m : List (K × List V)) (k : K) (l : List V), alistLookup m k = some l →
      alistLookup (ps.foldl (fun m p => dictListAppend m p.1 p.2) m) k
        = some (l ++ pairsValuesAt ps k) := by
  induction ps with
  | nil =>
    intro m k l h
    simpa [pairsValuesAt] using h
  | cons p rest ih =>
    intro m k l h
    simp only [List.foldl_cons]
    by_cases hk : k = p.1
    · subst hk
      have h1 : alistLookup (dictListAppend m p.1 p.2) p.1 = some (l ++ [p.2]) := by
        simp [dictListAppend, alistLookup_upsert_self, h]
      rw [ih _ _ _ h1, pairsValuesAt_cons, if_pos rfl]
      simp [List.append_assoc]
    · have h1 : alistLookup (dictListAppend m p.1 p.2) k = some l := by
        rw [dictListAppend, alistLookup_upsert_ne _ _ _ _ hk]
        exact h
      rw [ih _ _ _ h1, pairsValuesAt_cons, if_neg (fun hc => hk hc.symm)]

theorem foldl_dictListAppend_lookup_none (ps : List (K × V)) :
    ∀ (m : List (K × List V)) (k : K), alistLookup m k = none →
      alistLookup (ps.foldl (fun m p => dictListAppend m p.1 p.2) m) k
        = if (pairsValuesAt ps k).isEmpty then none else some (pairsValuesAt ps k) := by
  induction ps with
  | nil =>
    intro m k h
    simpa [pairsValuesAt] using h
  | cons p rest ih =>
    intro m k h
    simp only [List.foldl_cons]
    by_cases hk : k = p.1
    · subst hk
      have h1 : alistLookup (dictListAppend m p.1 p.2) p.1 = some [p.2] := by
        simp [dictListAppend, alistLookup_upsert_self, h]
      rw [foldl_dictListAppend_lookup_some rest _ _ _ h1, pairsValuesAt_cons, if_pos rfl]
      simp
    · have h1 : alistLookup (dictListAppend m p.1 p.2) k = none := by
        rw [dictListAppend, alistLookup_upsert_ne _ _ _ _ hk]
        exact h
      have hne : (p.1 = k) = False := eq_false (fun hc => hk hc.symm)
      rw [ih _ _ h1, pairsValuesAt_cons]
      simp only [hne, if_false]

theorem foldl_dictListAppend_keys_nodup (ps : List (K × V)) :
    ∀ (m : List (K × List V)), (alistKeys m).Nodup →
      (alistKeys (ps.foldl (fun m p => dictListAppend m p.1 p.2) m)).Nodup := by
  induction ps with
  | nil => intro m h; exact h
  | cons p rest ih =>
    intro m h
    simp only [List.foldl_cons]
    exact ih _ (alistKeys_upsert_nodup _ _ _ h)

end GroupFoldLemmas

/-- Source lines 305-310 issue exactly one over-window aggregation call per
entry of `window_agg_map`, in insertion order, each call receiving the entry's
full accumulated descriptor list. -/
theorem applyOverWindowAggs_events (m : WindowAggMap) :
    ∀ t : NativeFlinkTable,
      (applyOverWindowAggs m t).2
        = m.map (fun e => BuilderEvent.overWindowCall e.1 e.2) := by
  induction m with
  | nil => intro t; rfl
  | cons p rest ih =>
    intro t
    simp only [applyOverWindowAggs, ih, List.map_cons]

/-- Source lines 312-328 issue exactly one as-of join call per entry of
`right_tables`, in insertion order, each projecting the right table to the
keys of the entry's field-descriptor map. -/
theorem applyTemporalJoins_events (tbn : List (String × NativeFlinkTable)) :
    ∀ (rt : RightTables) (t tf : NativeFlinkTable) (evs : List BuilderEvent),
      applyTemporalJoins tbn rt t = .ok (tf, evs) →
      evs = rt.map (fun e => BuilderEvent.temporalJoinCall e.1.1 e.1.2 (alistKeys e.2)) := by
  intro rt
  induction rt with
  | nil =>
    intro t tf evs h
    simp only [applyTemporalJoins] at h
    cases h
    rfl
  | cons p rest ih =>
    intro t tf evs h
    obtain ⟨⟨rightTableName, ks⟩, fieldDescriptors⟩ := p
    simp only [applyTemporalJoins] at h
    cases hlk : alistLookup tbn rightTableName with
    | none =>
      simp only [hlk] at h
      exact Except.noConfusion h
    | some rt0 =>
      simp only [hlk] at h
      cases hrec : applyTemporalJoins tbn rest
        (.temporalJoin t (.select rt0 (alistKeys fieldDescriptors)) ks fieldDescriptors) with
      | error e =>
        simp only [hrec] at h
        exact Except.noConfusion h
      | ok pr =>
        obtain ⟨tf2, evs2⟩ := pr
        simp only [hrec, Except.ok.injEq, Prod.mk.injEq] at h
        obtain ⟨h1, h2⟩ := h
        subst h2
        simp only [List.map_cons]
        rw [ih _ _ _ hrec]

/-- A successful dispatch loop leaves in `window_agg_map` exactly the
per-shape appends of its over-window dispatches and in `right_tables` exactly
the folded updates of its join dispatches. -/
theorem processDerivedFeatures_maps (c : DerivedDispatchCtx) :
    ∀ (fs : List Feature) (st st' : DispatchState),
      processDerivedFeatures c fs st = .ok st' →
      st'.windowAggMap = (owDispatches c fs st.tmpTable).foldl
          (fun m p => dictListAppend m p.1 p.2) st.windowAggMap
        ∧ st'.rightTables = (jdDispatches c fs st.tmpTable).foldl
            applyJoinDispatch st.rightTables := by
  intro fs
  induction fs with
  | nil =>
    intro st st' h
    simp only [processDerivedFeatures, Except.ok.injEq] at h
    subst h
    simp [owDispatches, jdDispatches]
  | cons f fs ih =>
    intro st st' h
    simp only [processDerivedFeatures] at h
    cases hstep : processDerivedFeature c st f with
    | error e =>
      simp only [hstep] at h
      exact Except.noConfusion h
    | ok st1 =>
      simp only [hstep] at h
      have hrec := ih st1 st' h
      unfold processDerivedFeature at hstep
      by_cases hskip : f.name ∈ st.tmpTable.getFieldNames
      · rw [if_pos hskip] at hstep
        simp only [Except.ok.injEq] at hstep
        subst hstep
        simp only [owDispatches, jdDispatches, if_pos hskip]
        exact hrec
      · rw [if_neg hskip] at hstep
        cases htr : f.transform with
        | expression e =>
          simp only [htr, Except.ok.injEq] at hstep
          subst hstep
          simp only [owDispatches, jdDispatches, if_neg hskip, htr]
          simpa using hrec
        | overWindow t =>
          simp only [htr] at hstep
          cases hts : c.viewTimestampField with
          | none =>
            simp only [hts] at hstep
            exact Except.noConfusion hstep
          | some tsf =>
            simp only [hts, Except.ok.injEq] at hstep
            subst hstep
            simp only [owDispatches, jdDispatches, if_neg hskip, htr, List.foldl_cons]
            simpa using hrec
        | join j =>
          simp only [htr] at hstep
          cases hk : f.keys with
          | none =>
            simp only [hk] at hstep
            exact Except.noConfusion hstep
          | some ks =>
            simp only [hk] at hstep
            by_cases hall : ks.all (fun k => decide (k ∈ c.sourceFieldNames))
            · rw [if_pos hall] at hstep
              cases hlook : alistLookup c.descriptorsByNames j.table_name with
              | none =>
                simp only [hlook] at hstep
                exact Except.noConfusion hstep
              | some rd =>
                simp only [hlook] at hstep
                cases hts : rd.timestamp_field with
                | none =>
                  simp only [hts] at hstep
                  exact Except.noConfusion hstep
                | some rts =>
                  simp only [hts, Except.ok.injEq] at hstep
                  subst hstep
                  simp only [owDispatches, jdDispatches, if_neg hskip, htr, hk,
                    if_pos hall, hlook, hts, List.foldl_cons]
                  simpa using hrec
            · rw [if_neg hall] at hstep
              exact Except.noConfusion hstep
        | slidingWindow t =>
          simp only [htr] at hstep
          exact Except.noConfusion hstep
        | unknown tn =>
          simp only [htr] at hstep
          exact Except.noConfusion hstep

section JoinBatchLemmas

variable {K V : Type} [DecidableEq K]

theorem mem_keys_foldl_alistInsert_of_mem (l : List K) (g : K → V) :
    ∀ (m : List (K × V)) (k' : K), k' ∈ alistKeys m →
      k' ∈ alistKeys (l.foldl (fun m k => alistInsert m k (g k)) m) := by
  induction l with
  | nil => intro m k' h; exact h
  | cons a l ih =>
    intro m k' h
    exact ih _ _ (mem_alistKeys_insert_of_mem _ _ _ _ h)

theorem mem_keys_foldl_alistInsert_self (l : List K) (g : K → V) :
    ∀ (m : List (K × V)) (k' : K), k' ∈ l →
      k' ∈ alistKeys (l.foldl (fun m k => alistInsert m k (g k)) m) := by
  induction l with
  | nil => intro m k' h; cases h
  | cons a l ih =>
    intro m k' h
    rcases List.mem_cons.mp h with rfl | h
    · exact mem_keys_foldl_alistInsert_of_mem l g _ _ (mem_alistKeys_insert_self _ _ _)
    · exact ih _ _ h

theorem nodup_keys_foldl_alistInsert (l : List K) (g : K → V) :
    ∀ (m : List (K × V)), (alistKeys m).Nodup →
      (alistKeys (l.foldl (fun m k => alistInsert m k (g k)) m)).Nodup := by
  induction l with
  | nil => intro m h; exact h
  | cons a l ih =>
    intro m h
    exact ih _ (alistKeys_insert_nodup _ _ _ h)

end JoinBatchLemmas

/-- The batching key of a join dispatch, `(table_name, tuple(feature.keys))`. -/
def JoinDispatch.batchKey (jd : JoinDispatch) : String × List String :=
  (jd.tableName, jd.joinKeys)

theorem mem_keys_joinDispatchInnerUpdate_of_mem (jd : JoinDispatch)
    (o : Option (List (String × JoinFieldDescriptor))) (k' : String)
    (h : k' ∈ alistKeys (o.getD [])) :
    k' ∈ alistKeys (joinDispatchInnerUpdate jd o) := by
  unfold joinDispatchInnerUpdate
  exact mem_alistKeys_insert_of_mem _ _ _ _
    (mem_alistKeys_insert_of_mem _ _ _ _
      (mem_alistKeys_insert_of_mem _ _ _ _
        (mem_keys_foldl_alistInsert_of_mem _ _ _ _ h)))

/-- Every field written by a join dispatch is a key of the updated inner map:
each join key, the right timestamp field, the internal event-time column and
the pulled value field. -/
theorem joinDispatchInnerUpdate_fields (jd : JoinDispatch)
    (o : Option (List (String × JoinFieldDescriptor))) :
    (∀ k ∈ jd.joinKeys, k ∈ alistKeys (joinDispatchInnerUpdate jd o))
      ∧ jd.rightTimestampField ∈ alistKeys (joinDispatchInnerUpdate jd o)
      ∧ EVENT_TIME_ATTRIBUTE_NAME ∈ alistKeys (joinDispatchInnerUpdate jd o)
      ∧ jd.featureName ∈ alistKeys (joinDispatchInnerUpdate jd o) := by
  unfold joinDispatchInnerUpdate
  refine ⟨fun k hk => ?_, ?_, ?_, ?_⟩
  · exact mem_alistKeys_insert_of_mem _ _ _ _
      (mem_alistKeys_insert_of_mem _ _ _ _
        (mem_alistKeys_insert_of_mem _ _ _ _
          (mem_keys_foldl_alistInsert_self _ _ _ _ hk)))
  · exact mem_alistKeys_insert_of_mem _ _ _ _
      (mem_alistKeys_insert_of_mem _ _ _ _ (mem_alistKeys_insert_self _ _ _))
  · exact mem_alistKeys_insert_of_mem _ _ _ _ (mem_alistKeys_insert_self _ _ _)
  · exact mem_alistKeys_insert_self _ _ _

theorem joinDispatchInnerUpdate_nodup (jd : JoinDispatch)
    (o : Option (List (String × JoinFieldDescriptor)))
    (h : (alistKeys (o.getD [])).Nodup) :
    (alistKeys (joinDispatchInnerUpdate jd o)).Nodup := by
  unfold joinDispatchInnerUpdate
  exact alistKeys_insert_nodup _ _ _
    (alistKeys_insert_nodup _ _ _
      (alistKeys_insert_nodup _ _ _
        (nodup_keys_foldl_alistInsert _ _ _ h)))

theorem applyJoinDispatch_lookup_self (rt : RightTables) (jd : JoinDispatch) :
    alistLookup (applyJoinDispatch rt jd) jd.batchKey
      = some (joinDispatchInnerUpdate jd (alistLookup rt jd.batchKey)) :=
  alistLookup_upsert_self rt jd.batchKey (joinDispatchInnerUpdate jd)

/-- A join dispatch never deletes a key already present in some batch's field
map: the looked-up map after the dispatch still contains it. -/
theorem applyJoinDispatch_mono (rt : RightTables) (jd : JoinDispatch)
    (b : String × List String) (inner : List (String × JoinFieldDescriptor))
    (h : alistLookup rt b = some inner) :
    ∃ inner', alistLookup (applyJoinDispatch rt jd) b = some inner'
      ∧ ∀ k', k' ∈ alistKeys inner → k' ∈ alistKeys inner' := by
  by_cases hb : b = jd.batchKey
  · subst hb
    rw [applyJoinDispatch_lookup_self]
    refine ⟨_, rfl, fun k' hk' => ?_⟩
    apply mem_keys_joinDispatchInnerUpdate_of_mem
    rw [h]
    exact hk'
  · rw [applyJoinDispatch,
      alistLookup_upsert_ne _ _ _ _ (show b ≠ (jd.tableName, jd.joinKeys) from hb)]
    exact ⟨inner, h, fun _ hk => hk⟩

theorem foldl_applyJoinDispatch_mono (jds : List JoinDispatch) :
    ∀ (rt : RightTables) (b : String × List String)
      (inner : List (String × JoinFieldDescriptor)),
      alistLookup rt b = some inner →
      ∃ inner', alistLookup (jds.foldl applyJoinDispatch rt) b = some inner'
        ∧ ∀ k', k' ∈ alistKeys inner → k' ∈ alistKeys inner' := by
  induction jds with
  | nil => intro rt b inner h; exact ⟨inner, h, fun _ hk => hk⟩
  | cons jd jds ih =>
    intro rt b inner h
    obtain ⟨inner1, h1, hmono1⟩ := applyJoinDispatch_mono rt jd b inner h
    obtain ⟨inner2, h2, hmono2⟩ := ih _ _ _ h1
    exact ⟨inner2, h2, fun k' hk => hmono2 _ (hmono1 _ hk)⟩

/-- After folding a list of join dispatches into `right_tables`, every
dispatch finds its batch entry, and that entry's field-descriptor map contains
all the fields the dispatch wrote. -/
theorem foldl_applyJoinDispatch_fields (jds : List JoinDispatch) :
    ∀ (rt : RightTables), ∀ jd ∈ jds,
      ∃ inner, alistLookup (jds.foldl applyJoinDispatch rt) jd.batchKey = some inner
        ∧ (∀ k ∈ jd.joinKeys, k ∈ alistKeys inner)
        ∧ jd.rightTimestampField ∈ alistKeys inner
        ∧ EVENT_TIME_ATTRIBUTE_NAME ∈ alistKeys inner
        ∧ jd.featureName ∈ alistKeys inner := by
  induction jds with
  | nil => intro rt jd h; cases h
  | cons jd0 jds ih =>
    intro rt jd h
    rcases List.mem_cons.mp h with rfl | h
    · have h0 := applyJoinDispatch_lookup_self rt jd
      obtain ⟨hks, hts, hev, hfn⟩ :=
        joinDispatchInnerUpdate_fields jd (alistLookup rt jd.batchKey)
      obtain ⟨inner', h1, hmono⟩ :=
        foldl_applyJoinDispatch_mono jds (applyJoinDispatch rt jd) jd.batchKey _ h0
      exact ⟨inner', h1, fun k hk => hmono _ (hks k hk), hmono _ hts,
        hmono _ hev, hmono _ hfn⟩
    · exact ih (applyJoinDispatch rt jd0) jd h

theorem foldl_applyJoinDispatch_keys_nodup (jds : List JoinDispatch) :
    ∀ (rt : RightTables), (alistKeys rt).Nodup →
      (alistKeys (jds.foldl applyJoinDispatch rt)).Nodup := by
  induction jds with
  | nil => intro rt h; exact h
  | cons jd jds ih =>
    intro rt h
    exact ih _ (alistKeys_upsert_nodup _ _ _ h)

theorem foldl_applyJoinDispatch_inner_nodup (jds : List JoinDispatch) :
    ∀ (rt : RightTables), (∀ p ∈ rt, (alistKeys p.2).Nodup) →
      ∀ p ∈ jds.foldl applyJoinDispatch rt, (alistKeys p.2).Nodup := by
  induction jds with
  | nil => intro rt h; exact h
  | cons jd jds ih =>
    intro rt h
    apply ih
    apply alistUpsert_forall_values (fun v => (alistKeys v).Nodup) _ _ _ h
    intro o ho
    apply joinDispatchInnerUpdate_nodup
    cases o with
    | none => simp [alistKeys]
    | some v => exact ho v rfl

/-! Lemmas about `_get_dependent_features`. -/

theorem nodup_append_singleton {α : Type} (l : List α) (a : α)
    (hl : l.Nodup) (ha : a ∉ l) : (l ++ [a]).Nodup := by
  simp [List.nodup_append, hl, ha]

/-- A feature is never structurally equal to one of its own input features
(inputs are proper structural subterms). -/
theorem Feature.not_mem_own_inputs (f : Feature) : f ∉ f.input_features := by
  intro h
  cases f with
  | mk n d t k ins =>
    have h1 : sizeOf (Feature.mk n d t k ins) < sizeOf ins :=
      List.sizeOf_lt_of_mem (by simpa [Feature.input_features] using h)
    simp only [Feature.mk.sizeOf_spec] at h1
    omega

theorem add_input_features_spec (l : List Feature) :
    ∀ acc, ∃ ex, add_input_features acc l = acc ++ ex ∧ ∀ a ∈ ex, a ∈ l := by
  induction l with
  | nil =>
    intro acc
    exact ⟨[], by simp [add_input_features]⟩
  | cons inp rest ih =>
    intro acc
    by_cases h : inp ∈ acc
    · obtain ⟨ex, he, hsub⟩ := ih acc
      refine ⟨ex, ?_, fun a ha => List.mem_cons_of_mem _ (hsub a ha)⟩
      simp only [add_input_features, if_pos h]
      exact he
    · obtain ⟨ex, he, hsub⟩ := ih (acc ++ [inp])
      refine ⟨inp :: ex, ?_, ?_⟩
      · simp only [add_input_features, if_neg h]
        rw [he]
        simp
      · intro a ha
        rcases List.mem_cons.mp ha with rfl | ha
        · exact List.mem_cons_self _ _
        · exact List.mem_cons_of_mem _ (hsub a ha)

theorem mem_add_input_features_left (l : List Feature) (acc : List Feature)
    (a : Feature) (h : a ∈ acc) : a ∈ add_input_features acc l := by
  obtain ⟨ex, he, _⟩ := add_input_features_spec l acc
  rw [he]
  exact List.mem_append_left _ h

theorem mem_add_input_features_of_mem_inputs (l : List Feature) :
    ∀ (acc : List Feature) (a : Feature), a ∈ l → a ∈ add_input_features acc l := by
  induction l with
  | nil =>
    intro acc a h
    cases h
  | cons inp rest ih =>
    intro acc a h
    rcases List.mem_cons.mp h with rfl | h
    · by_cases hm : a ∈ acc
      · simp only [add_input_features, if_pos hm]
        exact mem_add_input_features_left rest acc a hm
      · simp only [add_input_features, if_neg hm]
        exact mem_add_input_features_left rest _ a (by simp)
    · by_cases hm : inp ∈ acc
      · simp only [add_input_features, if_pos hm]
        exact ih _ _ h
      · simp only [add_input_features, if_neg hm]
        exact ih _ _ h

theorem add_input_features_nodup (l : List Feature) :
    ∀ acc, acc.Nodup → (add_input_features acc l).Nodup := by
  induction l with
  | nil =>
    intro acc h
    exact h
  | cons inp rest ih =>
    intro acc h
    by_cases hm : inp ∈ acc
    · simp only [add_input_features, if_pos hm]
      exact ih acc h
    · simp only [add_input_features, if_neg hm]
      exact ih _ (nodup_append_singleton acc inp h hm)

theorem dependent_features_aux_spec (fs : List Feature) :
    ∀ acc, ∃ ex, dependent_features_aux acc fs = acc ++ ex := by
  induction fs with
  | nil =>
    intro acc
    exact ⟨[], by simp [dependent_features_aux]⟩
  | cons f rest ih =>
    intro acc
    obtain ⟨ex1, he1, _⟩ := add_input_features_spec f.input_features acc
    simp only [dependent_features_aux]
    by_cases hf : f ∈ add_input_features acc f.input_features
    · simp only [if_pos hf]
      obtain ⟨ex2, he2⟩ := ih (add_input_features acc f.input_features)
      exact ⟨ex1 ++ ex2, by rw [he2, he1, List.append_assoc]⟩
    · simp only [if_neg hf]
      obtain ⟨ex2, he2⟩ := ih (add_input_features acc f.input_features ++ [f])
      refine ⟨ex1 ++ [f] ++ ex2, ?_⟩
      rw [he2, he1]
      simp [List.append_assoc]

theorem mem_dependent_features_aux_left (fs : List Feature) (acc : List Feature)
    (a : Feature) (h : a ∈ acc) : a ∈ dependent_features_aux acc fs := by
  obtain ⟨ex, he⟩ := dependent_features_aux_spec fs acc
  rw [he]
  exact List.mem_append_left _ h

theorem mem_dependent_features_aux_self (fs : List Feature) :
    ∀ (acc : List Feature) (f : Feature), f ∈ fs → f ∈ dependent_features_aux acc fs := by
  induction fs with
  | nil =>
    intro acc f h
    cases h
  | cons f0 rest ih =>
    intro acc f h
    simp only [dependent_features_aux]
    rcases List.mem_cons.mp h with rfl | h
    · by_cases hf : f ∈ add_input_features acc f.input_features
      · simp only [if_pos hf]
        exact mem_dependent_features_aux_left rest _ f hf
      · simp only [if_neg hf]
        exact mem_dependent_features_aux_left rest _ f (by simp)
    · by_cases hf : f0 ∈ add_input_features acc f0.input_features
      · simp only [if_pos hf]
        exact ih _ f h
      · simp only [if_neg hf]
        exact ih _ f h

theorem mem_dependent_features_aux_inputs (fs : List Feature) :
    ∀ (acc : List Feature) (f g : Feature), f ∈ fs → g ∈ f.input_features →
      g ∈ dependent_features_aux acc fs := by
  induction fs with
  | nil =>
    intro acc f g h
    cases h
  | cons f0 rest ih =>
    intro acc f g h hg
    simp only [dependent_features_aux]
    rcases List.mem_cons.mp h with rfl | h
    · have hm : g ∈ add_input_features acc f.input_features :=
        mem_add_input_features_of_mem_inputs _ _ _ hg
      by_cases hf : f ∈ add_input_features acc f.input_features
      · simp only [if_pos hf]
        exact mem_dependent_features_aux_left rest _ g hm
      · simp only [if_neg hf]
        exact mem_dependent_features_aux_left rest _ g (List.mem_append_left _ hm)
    · by_cases hf : f0 ∈ add_input_features acc f0.input_features
      · simp only [if_pos hf]
        exact ih _ f g h hg
      · simp only [if_neg hf]
        exact ih _ f g h hg

theorem dependent_features_aux_nodup (fs : List Feature) :
    ∀ acc, acc.Nodup → (dependent_features_aux acc fs).Nodup := by
  induction fs with
  | nil =>
    intro acc h
    exact h
  | cons f rest ih =>
    intro acc h
    simp only [dependent_features_aux]
    have h1 := add_input_features_nodup f.input_features acc h
    by_cases hf : f ∈ add_input_features acc f.input_features
    · simp only [if_pos hf]
      exact ih _ h1
    · simp only [if_neg hf]
      exact ih _ (nodup_append_singleton _ _ h1 hf)

theorem dependent_features_aux_append_eq (l1 : List Feature) :
    ∀ (l2 acc : List Feature),
      dependent_features_aux acc (l1 ++ l2)
        = dependent_features_aux (dependent_features_aux acc l1) l2 := by
  induction l1 with
  | nil =>
    intro l2 acc
    simp [dependent_features_aux]
  | cons f rest ih =>
    intro l2 acc
    simp only [List.cons_append, dependent_features_aux]
    exact ih l2 _

/-- The step of the resolver loop for a declared feature `f` not already
emitted: its direct inputs are all placed in the prefix before `f`. -/
theorem dependent_features_aux_ordering_step (acc : List Feature) (f : Feature)
    (fs : List Feature) (hna : f ∉ acc) :
    ∃ l2, dependent_features_aux acc (f :: fs)
      = add_input_features acc f.input_features ++ f :: l2 := by
  have hf : f ∉ add_input_features acc f.input_features := by
    obtain ⟨ex, he, hsub⟩ := add_input_features_spec f.input_features acc
    rw [he]
    intro hmem
    rcases List.mem_append.mp hmem with hmem | hmem
    · exact hna hmem
    · exact Feature.not_mem_own_inputs f (hsub f hmem)
  simp only [dependent_features_aux, if_neg hf]
  obtain ⟨ex2, he2⟩ := dependent_features_aux_spec fs
    (add_input_features acc f.input_features ++ [f])
  exact ⟨ex2, by rw [he2]; simp⟩

/-! Concrete fixtures used by witnesses and counterexamples. -/

/-- Shorthand for an expression transform. -/
def exprT (s : String) : Transform := .expression ⟨s⟩

def cFeatC : Feature := .mk "c" .int64 (exprT "1") none []

def cFeatB : Feature := .mk "b" .int64 (exprT "2") none [cFeatC]

def cFeatA : Feature := .mk "a" .int64 (exprT "3") none [cFeatB]

def cSource : TableDescriptor := .featureTable "src" ["x"] (some "ts") "epoch"

/-- A resolved derived view declaring only `a`, whose input `b` itself has
input `c`. -/
def cView1 : TableDescriptor :=
  .derivedFeatureView "v1" cSource [cFeatA] true (some "ts") "epoch"

def dF3 : Feature := .mk "f3" .int64 (exprT "1") none []

def dF2 : Feature := .mk "f2" .int64 (exprT "2") none [dF3]

def dF1 : Feature := .mk "f1" .int64 (exprT "3") none [dF2]

/-- A resolved derived view declaring `f1` (whose input is `f2`) and then
`f2` (whose input is `f3`). -/
def cView2 : TableDescriptor :=
  .derivedFeatureView "v2" cSource [dF1, dF2] true (some "ts") "epoch"

/-- Sanity evaluation of the resolver on the fixtures: the declared-only view
resolves to `[b, a]` (the transitive input `c` is absent) and the two-feature
view resolves to `[f2, f1, f3]`. -/
theorem dependent_features_fixtures_eval :
    cFeatA.transitiveInputs = [cFeatB, cFeatC]
    ∧ get_dependent_features cView1 = [cFeatB, cFeatA]
    ∧ get_dependent_features cView2 = [dF2, dF1, dF3] := by
  decide

/-- C1 (counterexample): the dependent-feature sequence does not contain all
transitive inputs and does not always place inputs before their feature.  For
`cView1` (declared `a`, input chain `a ← b ← c`), `c` is a transitive input of
the declared feature `a` but is absent from the sequence (the code walks only
direct `input_features`).  For `cView2` (declared `f1` then `f2`, inputs
`f1 ← f2 ← f3`), `f3` is a (transitive, indeed direct) input of the declared
feature `f2` but appears after `f2` in the sequence `[f2, f1, f3]`. -/
theorem C1_dependent_features_counterexample :
    (cFeatC ∈ cFeatA.transitiveInputs
      ∧ cFeatA ∈ cView1.get_resolved_features
      ∧ cFeatC ∉ get_dependent_features cView1)
    ∧ (dF3 ∈ dF2.transitiveInputs
      ∧ dF2 ∈ cView2.get_resolved_features
      ∧ dF3 ∈ get_dependent_features cView2
      ∧ (get_dependent_features cView2).indexOf dF2
          < (get_dependent_features cView2).indexOf dF3) := by
  decide

/-- C1 (amended): for every resolved feature view, the dependent-feature
sequence computed by `_get_dependent_features` contains every declared feature
and all of its direct `input_features`, each feature appearing at most once
(by structural equality); and whenever a declared feature was not already
emitted while processing the preceding declared features, all of its direct
inputs are placed before it in the sequence. -/
theorem C1_dependent_features_amended (v : TableDescriptor) :
    (get_dependent_features v).Nodup
    ∧ (∀ f ∈ v.get_resolved_features, f ∈ get_dependent_features v)
    ∧ (∀ f ∈ v.get_resolved_features, ∀ g ∈ f.input_features,
        g ∈ get_dependent_features v)
    ∧ (∀ (i : Nat) (h : i < v.get_resolved_features.length),
        v.get_resolved_features.get ⟨i, h⟩
            ∉ dependent_features_aux [] (v.get_resolved_features.take i) →
        ∀ g ∈ (v.get_resolved_features.get ⟨i, h⟩).input_features,
          ∃ l1 l2, get_dependent_features v
              = l1 ++ (v.get_resolved_features.get ⟨i, h⟩) :: l2 ∧ g ∈ l1) := by
  refine ⟨dependent_features_aux_nodup _ [] List.nodup_nil,
    fun f hf => mem_dependent_features_aux_self _ [] f hf,
    fun f hf g hg => mem_dependent_features_aux_inputs _ [] f g hf hg,
    ?_⟩
  intro i h hni g hg
  set fs := v.get_resolved_features with hfs
  have hsplit : fs = fs.take i ++ fs.get ⟨i, h⟩ :: fs.drop (i + 1) := by
    rw [List.get_eq_getElem]
    conv_lhs => rw [← List.take_append_drop i fs]
    rw [List.drop_eq_getElem_cons h]
  obtain ⟨l2, he⟩ := dependent_features_aux_ordering_step
    (dependent_features_aux [] (fs.take i)) (fs.get ⟨i, h⟩) (fs.drop (i + 1)) hni
  have hmain : get_dependent_features v
      = add_input_features (dependent_features_aux [] (fs.take i))
          (fs.get ⟨i, h⟩).input_features ++ fs.get ⟨i, h⟩ :: l2 := by
    show dependent_features_aux [] v.get_resolved_features = _
    rw [← hfs]
    conv_lhs => rw [hsplit]
    rw [dependent_features_aux_append_eq]
    exact he
  exact ⟨_, l2, hmain, mem_add_input_features_of_mem_inputs _ _ _ hg⟩

/-- C1 (witness): the amended theorem instantiated at `cView2`, giving the
concrete facts that `f2`'s input `f3` is in the sequence and that `f1` (not
previously emitted) has its input `f2` placed before it. -/
theorem C1_dependent_features_amended_witness :
    dF3 ∈ get_dependent_features cView2
    ∧ (∃ l1 l2, get_dependent_features cView2 = l1 ++ dF1 :: l2 ∧ dF2 ∈ l1) := by
  have h := C1_dependent_features_amended cView2
  refine ⟨h.2.2.1 dF2 (by decide) dF3 (by decide), ?_⟩
  exact h.2.2.2 0 (by decide) (by decide) dF2 (by decide)

/-! Cache lemmas and fixtures for the session-cache claims. -/

theorem lookupBuilt_insertBuilt_self (s : BuilderState) (name : String)
    (d : TableDescriptor) (tb : NativeFlinkTable) :
    lookupBuilt (insertBuilt s name d tb) name = some (d, tb) := by
  unfold lookupBuilt insertBuilt
  exact alistLookup_insert_self _ _ _

theorem returnBuilt_after_insert (s : BuilderState) (name : String)
    (d : TableDescriptor) (tb : NativeFlinkTable) (ev : List BuilderEvent) :
    returnBuilt (insertBuilt s name d tb) name ev
      = ⟨.ok tb, insertBuilt s name d tb, ev⟩ := by
  unfold returnBuilt
  rw [lookupBuilt_insertBuilt_self]

def emptyState : BuilderState := ⟨[]⟩

def wCtx : BuilderContext := ⟨[]⟩

def wSrcA : TableDescriptor := .featureTable "n" ["x"] (some "ts") "epoch"

/-- Structurally different from `wSrcA` but sharing its name. -/
def wSrcB : TableDescriptor := .featureTable "n" ["y"] (some "ts") "epoch"

/-- The session state after compiling `wSrcA` from the empty session. -/
def wState : BuilderState := ⟨[("n", (wSrcA, get_table_from_source wSrcA))]⟩

/-- C2: for every builder session, calling `_get_table` with a descriptor
whose name is cached but which is not structurally equal to the cached
descriptor raises the conflict exception, leaving the session state (hence the
cache entry for that name) unchanged and issuing no calls. -/
theorem C2_cache_conflict (ctx : BuilderContext) (fuel : Nat) (s : BuilderState)
    (d d0 : TableDescriptor) (t0 : NativeFlinkTable)
    (hlk : lookupBuilt s d.name = some (d0, t0)) (hne : d ≠ d0) :
    get_table ctx (fuel + 1) s (.descriptor d)
      = ⟨.error (.feathubException msgConflictingDescriptor), s, []⟩ := by
  simp only [get_table, hlk]
  rw [if_pos hne]

/-- C2 (witness): a session that has compiled `wSrcA` rejects the
same-named but structurally different `wSrcB`, leaving the state unchanged. -/
theorem C2_cache_conflict_witness :
    get_table wCtx 1 wState (.descriptor wSrcB)
      = ⟨.error (.feathubException msgConflictingDescriptor), wState, []⟩ :=
  C2_cache_conflict wCtx 0 wState wSrcB wSrcA (get_table_from_source wSrcA)
    (by decide) (by decide)

/-- After a successful `_get_table` on a descriptor, the cache holds exactly
that descriptor and the returned table under the descriptor's name. -/
theorem get_table_ok_cached (ctx : BuilderContext) (fuel : Nat) (s : BuilderState)
    (d : TableDescriptor) (t : NativeFlinkTable) (s' : BuilderState)
    (ev : List BuilderEvent)
    (h : get_table ctx (fuel + 1) s (.descriptor d) = ⟨.ok t, s', ev⟩) :
    lookupBuilt s' d.name = some (d, t) := by
  simp only [get_table] at h
  cases hlk : lookupBuilt s d.name with
  | some p =>
    obtain ⟨d0, t0⟩ := p
    simp only [hlk] at h
    by_cases hne : d ≠ d0
    · rw [if_pos hne] at h
      simp only [BuildResult.mk.injEq] at h
      exact Except.noConfusion h.1
    · rw [if_neg hne] at h
      have hd : d = d0 := not_not.mp hne
      subst hd
      simp only [BuildResult.mk.injEq] at h
      obtain ⟨h1, h2, _⟩ := h
      rw [← h2, hlk]
      injection h1 with h1
      rw [h1]
  | none =>
    simp only [hlk] at h
    cases d with
    | featureTable nm flds ts fmt =>
      rw [returnBuilt_after_insert] at h
      simp only [BuildResult.mk.injEq] at h
      obtain ⟨h1, h2, _⟩ := h
      injection h1 with h1
      rw [← h2, lookupBuilt_insertBuilt_self, h1]
    | derivedFeatureView nm src fs ksf tsf fmt =>
      cases hr : get_table_from_derived_feature_view ctx (get_table ctx fuel) s
        (.derivedFeatureView nm src fs ksf tsf fmt) with
      | mk res s1 ev1 =>
        cases res with
        | error e =>
          simp only [hr] at h
          simp only [BuildResult.mk.injEq] at h
          exact Except.noConfusion h.1
        | ok tb =>
          simp only [hr, returnBuilt_after_insert] at h
          simp only [BuildResult.mk.injEq] at h
          obtain ⟨h1, h2, _⟩ := h
          injection h1 with h1
          rw [← h2, lookupBuilt_insertBuilt_self, h1]
    | slidingFeatureView nm src fs ksf tsf fmt =>
      cases hr : get_table_from_sliding_feature_view ctx (get_table ctx fuel) s
        (.slidingFeatureView nm src fs ksf tsf fmt) with
      | mk res s1 ev1 =>
        cases res with
        | error e =>
          simp only [hr] at h
          simp only [BuildResult.mk.injEq] at h
          exact Except.noConfusion h.1
        | ok tb =>
          simp only [hr, returnBuilt_after_insert] at h
          simp only [BuildResult.mk.injEq] at h
          obtain ⟨h1, h2, _⟩ := h
          injection h1 with h1
          rw [← h2, lookupBuilt_insertBuilt_self, h1]
    | sourceNameRef nm =>
      simp only [BuildResult.mk.injEq] at h
      exact Except.noConfusion h.1
    | otherDescriptor nm ts =>
      simp only [BuildResult.mk.injEq] at h
      exact Except.noConfusion h.1

/-- C3: compiling the same (structurally equal) descriptor a second time in
the same session returns the identical compiled table from the cache, leaves
the session state unchanged and issues no external call (no second
compilation). -/
theorem C3_cache_idempotent (ctx : BuilderContext) (fuel fuel2 : Nat)
    (s s' : BuilderState) (d : TableDescriptor) (t : NativeFlinkTable)
    (ev : List BuilderEvent)
    (h : get_table ctx (fuel + 1) s (.descriptor d) = ⟨.ok t, s', ev⟩) :
    get_table ctx (fuel2 + 1) s' (.descriptor d) = ⟨.ok t, s', []⟩ := by
  have hc := get_table_ok_cached ctx fuel s d t s' ev h
  simp only [get_table, hc]
  rw [if_neg (show ¬ d ≠ d from fun hx => hx rfl)]

/-- C3 (witness): after compiling the source `wSrcA` once from the empty
session, a second compile returns the identical table with no new calls and an
unchanged cache. -/
theorem C3_cache_idempotent_witness :
    get_table wCtx 1 wState (.descriptor wSrcA)
      = ⟨.ok (get_table_from_source wSrcA), wState, []⟩ :=
  C3_cache_idempotent wCtx 0 0 emptyState wState wSrcA
    (get_table_from_source wSrcA) [.sourceScanCall "n"] (by decide)

/-- An unresolved derived view (source still a registry name). -/
def wUnresolved : TableDescriptor :=
  .derivedFeatureView "u" (.sourceNameRef "s0") [] true none "epoch"

/-- C9: `build` called with an unresolved feature view raises the definition
exception before doing anything: no external call is issued and the session
state (the cache) is unchanged, so no table is compiled and no partial plan is
returned. -/
theorem C9_build_unresolved (ctx : BuilderContext) (fuel : Nat) (s : BuilderState)
    (d : TableDescriptor) (keys : Option TableLike)
    (sdt edt : Option Datetime)
    (h1 : d.isFeatureView = true) (h2 : d.is_unresolved = true) :
    build ctx fuel s d keys sdt edt
      = ⟨.error (.feathubException msgUnresolvedView), s, []⟩ := by
  unfold build
  rw [if_pos (by rw [h1, h2]; rfl)]

/-- C9 (witness): building the unresolved view `wUnresolved` fails
immediately with the unresolved-view exception, with no calls and an unchanged
state. -/
theorem C9_build_unresolved_witness :
    build wCtx 5 emptyState wUnresolved none none none
      = ⟨.error (.feathubException msgUnresolvedView), emptyState, []⟩ :=
  C9_build_unresolved wCtx 5 emptyState wUnresolved none none none
    (by decide) (by decide)

/-- When the range-and-strip tail of `build` returns a table, the internal
event-time column is not among its fields (it is dropped whenever present). -/
theorem buildRangeAndStrip_ok_no_event_time (features : TableDescriptor)
    (table : NativeFlinkTable) (s : BuilderState) (events : List BuilderEvent)
    (sdt edt : Option Datetime) (t : NativeFlinkTable) (s' : BuilderState)
    (ev : List BuilderEvent)
    (h : buildRangeAndStrip features table s events sdt edt = ⟨.ok t, s', ev⟩) :
    EVENT_TIME_ATTRIBUTE_NAME ∉ t.getFieldNames := by
  unfold buildRangeAndStrip at h
  split at h
  · simp only [BuildResult.mk.injEq] at h
    exact Except.noConfusion h.1
  · rename_i table3 heq
    simp only [BuildResult.mk.injEq] at h
    obtain ⟨h1, _, _⟩ := h
    injection h1 with h1
    subst h1
    by_cases hm : EVENT_TIME_ATTRIBUTE_NAME ∈ table3.getFieldNames
    · rw [if_pos hm]
      simp [NativeFlinkTable.getFieldNames, List.mem_filter]
    · rw [if_neg hm]
      exact hm

/-- C8: the output-field list used for every compiled view always contains the
internal event-time column (it is force-appended when absent), and the
top-level table returned by a successful `build` never contains it (it is
dropped just before return whenever present). -/
theorem C8_event_time_column (v : TableDescriptor) (sourceFields : List String)
    (ctx : BuilderContext) (fuel : Nat) (s : BuilderState) (d : TableDescriptor)
    (keys : Option TableLike) (sdt edt : Option Datetime) (t : NativeFlinkTable)
    (s' : BuilderState) (ev : List BuilderEvent)
    (h : build ctx fuel s d keys sdt edt = ⟨.ok t, s', ev⟩) :
    EVENT_TIME_ATTRIBUTE_NAME ∈ get_output_fields v sourceFields
    ∧ EVENT_TIME_ATTRIBUTE_NAME ∉ t.getFieldNames := by
  constructor
  · unfold get_output_fields
    by_cases hm : EVENT_TIME_ATTRIBUTE_NAME ∈ v.get_output_fields sourceFields
    · rw [if_pos hm]
      exact hm
    · rw [if_neg hm]
      simp
  · unfold build at h
    by_cases hu : (d.isFeatureView && d.is_unresolved) = true
    · rw [if_pos hu] at h
      simp only [BuildResult.mk.injEq] at h
      exact Except.noConfusion h.1
    · rw [if_neg hu] at h
      cases hgt : get_table ctx fuel s (.descriptor d) with
      | mk res s1 ev1 =>
        cases res with
        | error e =>
          simp only [hgt, BuildResult.mk.injEq] at h
          exact Except.noConfusion h.1
        | ok table =>
          simp only [hgt] at h
          cases keys with
          | none =>
            exact buildRangeAndStrip_ok_no_event_time _ _ _ _ _ _ _ _ _ h
          | some k =>
            cases hf : filter_table_by_keys (get_table ctx fuel) s1 table k with
            | mk res2 s2 ev2 =>
              cases res2 with
              | error e =>
                simp only [hf, BuildResult.mk.injEq] at h
                exact Except.noConfusion h.1
              | ok table2 =>
                simp only [hf] at h
                exact buildRangeAndStrip_ok_no_event_time _ _ _ _ _ _ _ _ _ h

/-- C8 (witness): building the concrete source `wSrcA` yields a table whose
fields do not include the internal event-time column, while the output-field
list of the concrete view `cView1` does include it. -/
theorem C8_event_time_column_witness :
    EVENT_TIME_ATTRIBUTE_NAME ∈ get_output_fields cView1 ["x"]
    ∧ EVENT_TIME_ATTRIBUTE_NAME ∉ (NativeFlinkTable.dropColumns
        (get_table_from_source wSrcA) EVENT_TIME_ATTRIBUTE_NAME).getFieldNames :=
  C8_event_time_column cView1 ["x"] wCtx 1 emptyState wSrcA none none none
    (NativeFlinkTable.dropColumns (get_table_from_source wSrcA)
      EVENT_TIME_ATTRIBUTE_NAME)
    wState [.sourceScanCall "n"] (by decide)

/-! Event-time range filtering (`_range_table_by_time`). -/

/-- A start bound with a sub-second component. -/
def wStart : Datetime := ⟨2022, 1, 1, 0, 0, 0, 500000⟩

/-- A row strictly earlier than `wStart` but in the same whole second. -/
def wRowEarly : TableRow := ⟨⟨2022, 1, 1, 0, 0, 0, 200000⟩⟩

def wRowLate : TableRow := ⟨⟨2022, 1, 1, 0, 0, 5, 0⟩⟩

def wTable0 : NativeFlinkTable := .fromPandas ⟨["x"]⟩

/-- C7 (counterexample): with `start = 00:00:00.500000`, the row at
`00:00:00.200000` — strictly earlier than the given start — survives the start
filter, because the bound is truncated to whole seconds before the
comparison.  So the result does not retain only rows with
`event_time >= start`. -/
theorem C7_range_filter_counterexample :
    wRowEarly.eventTime.toMicros < wStart.toMicros
    ∧ wRowEarly ∈ filteredRows
        (range_table_by_time wTable0 (some wStart) none) [wRowEarly] := by
  decide

/-- C7 (amended): `_range_table_by_time` retains exactly the rows satisfying
`truncate(start) <= event_time` (when a start is given) and
`event_time < truncate(end)` (when an end is given), where `truncate` discards
the bound's sub-second component; an omitted bound imposes no filter on its
side, and with both bounds omitted the table is returned unchanged. -/
theorem C7_range_filter_amended (t : NativeFlinkTable) (sdt edt : Option Datetime)
    (rows : List TableRow) :
    (∀ r : TableRow,
      r ∈ filteredRows (range_table_by_time t sdt edt) rows ↔
        (r ∈ filteredRows t rows
          ∧ (∀ sd, sdt = some sd →
              (strftimeSecondsToTimestamp sd).toMicros ≤ r.eventTime.toMicros)
          ∧ (∀ ed, edt = some ed →
              r.eventTime.toMicros < (strftimeSecondsToTimestamp ed).toMicros)))
    ∧ range_table_by_time t none none = t := by
  refine ⟨?_, rfl⟩
  intro r
  cases sdt with
  | none =>
    cases edt with
    | none =>
      simp [range_table_by_time]
    | some ed =>
      simp [range_table_by_time, filteredRows, List.mem_filter]
  | some sd =>
    cases edt with
    | none =>
      simp [range_table_by_time, filteredRows, List.mem_filter]
    | some ed =>
      simp only [range_table_by_time, filteredRows, List.mem_filter,
        decide_eq_true_eq, Option.some.injEq, forall_eq']
      constructor
      · rintro ⟨⟨hmem, hge⟩, hlt⟩
        exact ⟨hmem, hge, hlt⟩
      · rintro ⟨hmem, hge, hlt⟩
        exact ⟨⟨hmem, hge⟩, hlt⟩

/-- C7 (witness): the amended theorem at concrete inputs — with
`start = 00:00:00.500000` and no end bound, the row at `00:00:05` is retained
(its event time is above the truncated bound, and it belongs to the base
rows). -/
theorem C7_range_filter_amended_witness :
    wRowLate ∈ filteredRows
      (range_table_by_time wTable0 (some wStart) none) [wRowEarly, wRowLate] := by
  have h := (C7_range_filter_amended wTable0 (some wStart) none
    [wRowEarly, wRowLate]).1 wRowLate
  refine h.mpr ⟨by decide, ?_, ?_⟩
  · intro sd hsd
    cases hsd
    decide
  · intro ed hed
    exact Option.noConfusion hed

/-- C10: the bound actually compared against the internal event-time column is
the given datetime truncated to whole-second precision — the filters added by
`_range_table_by_time` keep exactly the rows whose event time compares against
the bound with its microsecond component replaced by zero, so any sub-second
component of the given bound is discarded before the `>=` / `<` comparison. -/
theorem C10_bounds_truncated_to_seconds (t : NativeFlinkTable) (sd ed : Datetime)
    (rows : List TableRow) :
    filteredRows (range_table_by_time t (some sd) none) rows
      = (filteredRows t rows).filter (fun r =>
          (Datetime.mk sd.year sd.month sd.day sd.hour sd.minute sd.second 0).toMicros
            ≤ r.eventTime.toMicros)
    ∧ filteredRows (range_table_by_time t none (some ed)) rows
      = (filteredRows t rows).filter (fun r =>
          r.eventTime.toMicros
            < (Datetime.mk ed.year ed.month ed.day ed.hour ed.minute ed.second 0).toMicros) := by
  constructor
  · rfl
  · rfl

/-! Join dispatch fixtures and the join key check (C4). -/

/-- The registered right table for join fixtures. -/
def wRightDesc : TableDescriptor :=
  .featureTable "right" ["k", "price", "cost", "rts"] (some "rts") "epoch"

/-- The left (source) table of the dispatch fixtures. -/
def wSrcT : NativeFlinkTable :=
  .fromSource "src" ["k", "x", EVENT_TIME_ATTRIBUTE_NAME]

/-- Dispatch context for the fixtures: view timestamp declared, left schema
`[k, x, event-time]`, registry resolving `"right"`. -/
def wDispatchCtx : DerivedDispatchCtx :=
  ⟨some "ts", ["k", "x", EVENT_TIME_ATTRIBUTE_NAME], [("right", wRightDesc)]⟩

/-- A join feature with an explicitly empty key list. -/
def wJoinFeatEmptyKeys : Feature :=
  .mk "price" .int64 (.join ⟨"right", "price"⟩) (some []) []

/-- A join feature with no declared keys (`keys is None`). -/
def wJoinFeatNoKeys : Feature :=
  .mk "price" .int64 (.join ⟨"right", "price"⟩) none []

/-- C4 (counterexample): a join feature with a declared-but-empty key list
passes the join key check — the dispatch succeeds rather than failing with a
schema error, because the code only tests `feature.keys is None` and the
`all(...)` test over an empty list is vacuously true. -/
theorem C4_join_key_check_counterexample :
    wJoinFeatEmptyKeys.keys = some []
    ∧ ∃ st', processDerivedFeature wDispatchCtx (initialDispatchState wSrcT)
        wJoinFeatEmptyKeys = .ok st' := by
  exact ⟨rfl, ⟨_, rfl⟩⟩

/-- C4 (amended): for a dispatched join feature (not already a column), the
compilation fails with the join-without-key exception when `feature.keys` is
`None`, and with the missing-source-keys exception when some declared key is
absent from the left (source) table's schema; when keys are declared (possibly
as an empty list) and all of them are present in the left schema, the join key
check passes: any subsequent failure is not one of those two errors. -/
theorem C4_join_key_check_amended (c : DerivedDispatchCtx) (st : DispatchState)
    (f : Feature) (j : JoinTransform) (htr : f.transform = .join j)
    (hskip : f.name ∉ st.tmpTable.getFieldNames) :
    (f.keys = none →
      processDerivedFeature c st f = .error (.feathubException msgJoinWithoutKey))
    ∧ (∀ ks, f.keys = some ks → (∃ k ∈ ks, k ∉ c.sourceFieldNames) →
      processDerivedFeature c st f
        = .error (.feathubException msgSourceMissingJoinKeys))
    ∧ (∀ ks, f.keys = some ks → (∀ k ∈ ks, k ∈ c.sourceFieldNames) →
      ∀ e, processDerivedFeature c st f = .error e →
        e ≠ .feathubException msgJoinWithoutKey
        ∧ e ≠ .feathubException msgSourceMissingJoinKeys) := by
  refine ⟨?_, ?_, ?_⟩
  · intro hk
    unfold processDerivedFeature
    rw [if_neg hskip]
    simp only [htr, hk]
  · rintro ks hk ⟨k, hkmem, hknot⟩
    unfold processDerivedFeature
    rw [if_neg hskip]
    simp only [htr, hk]
    have hfalse : ¬ (ks.all (fun k => decide (k ∈ c.sourceFieldNames)) = true) := by
      simp only [List.all_eq_true, decide_eq_true_eq]
      intro hall
      exact hknot (hall k hkmem)
    rw [if_neg hfalse]
  · intro ks hk hall e he
    unfold processDerivedFeature at he
    rw [if_neg hskip] at he
    simp only [htr, hk] at he
    have htrue : ks.all (fun k => decide (k ∈ c.sourceFieldNames)) = true := by
      simp only [List.all_eq_true, decide_eq_true_eq]
      exact hall
    rw [if_pos htrue] at he
    cases hlook : alistLookup c.descriptorsByNames j.table_name with
    | none =>
      simp only [hlook, Except.error.injEq] at he
      subst he
      exact ⟨by decide, by decide⟩
    | some rd =>
      simp only [hlook] at he
      cases hts : rd.timestamp_field with
      | none =>
        simp only [hts, Except.error.injEq] at he
        subst he
        exact ⟨by decide, by decide⟩
      | some rts =>
        simp only [hts] at he
        exact Except.noConfusion he

/-- C4 (witness): the amended theorem at concrete inputs — the fixture join
feature with `keys = None` fails with the join-without-key exception. -/
theorem C4_join_key_check_amended_witness :
    processDerivedFeature wDispatchCtx (initialDispatchState wSrcT) wJoinFeatNoKeys
      = .error (.feathubException msgJoinWithoutKey) :=
  (C4_join_key_check_amended wDispatchCtx (initialDispatchState wSrcT)
    wJoinFeatNoKeys ⟨"right", "price"⟩ rfl (by decide)).1 rfl

/-- C5: within one derived-view compilation, the join batches are keyed by
`(table_name, keys)` with no duplicate batch (so all join features sharing
that pair land in one batch), every batch's field-descriptor map has pairwise
distinct field names, exactly one as-of join call is issued per batch
projecting the right table to exactly those field names, and every dispatched
join feature's fields — its join keys, the right table's timestamp field, the
internal event-time column and the pulled value field — are in its batch's
map. -/
theorem C5_join_batching (c : DerivedDispatchCtx) (fs : List Feature)
    (tmp : NativeFlinkTable) (st' : DispatchState)
    (h : processDerivedFeatures c fs (initialDispatchState tmp) = .ok st') :
    (alistKeys st'.rightTables).Nodup
    ∧ (∀ p ∈ st'.rightTables, (alistKeys p.2).Nodup)
    ∧ (∀ (tbn : List (String × NativeFlinkTable)) (t tf : NativeFlinkTable)
        (evs : List BuilderEvent),
        applyTemporalJoins tbn st'.rightTables t = .ok (tf, evs) →
        evs = st'.rightTables.map
          (fun e => BuilderEvent.temporalJoinCall e.1.1 e.1.2 (alistKeys e.2)))
    ∧ (∀ jd ∈ jdDispatches c fs tmp,
        ∃ inner, alistLookup st'.rightTables jd.batchKey = some inner
          ∧ (∀ k ∈ jd.joinKeys, k ∈ alistKeys inner)
          ∧ jd.rightTimestampField ∈ alistKeys inner
          ∧ EVENT_TIME_ATTRIBUTE_NAME ∈ alistKeys inner
          ∧ jd.featureName ∈ alistKeys inner) := by
  obtain ⟨_, hrt⟩ := processDerivedFeatures_maps c fs _ _ h
  simp only [initialDispatchState] at hrt
  refine ⟨?_, ?_, ?_, ?_⟩
  · rw [hrt]
    exact foldl_applyJoinDispatch_keys_nodup _ [] (by simp [alistKeys])
  · rw [hrt]
    exact foldl_applyJoinDispatch_inner_nodup _ [] (by simp)
  · intro tbn t tf evs hj
    exact applyTemporalJoins_events tbn _ _ _ _ hj
  · intro jd hjd
    rw [hrt]
    exact foldl_applyJoinDispatch_fields _ [] jd hjd

/-- Two join features pulling different fields from the same table on the same
keys. -/
def wJF1 : Feature := .mk "price" .int64 (.join ⟨"right", "price"⟩) (some ["k"]) []

def wJF2 : Feature := .mk "cost" .int64 (.join ⟨"right", "cost"⟩) (some ["k"]) []

/-- The dispatch state after dispatching `wJF1` and `wJF2`: one join batch. -/
def wSt5 : DispatchState :=
  ⟨wSrcT, [],
    applyJoinDispatch
      (applyJoinDispatch [] ⟨"right", ["k"], "rts", "price", wRightDesc⟩)
      ⟨"right", ["k"], "rts", "cost", wRightDesc⟩, []⟩

/-- C5 (witness): dispatching the two fixture join features yields a single
batch keyed `("right", ["k"])` whose field map contains the join key, the
right timestamp field, the internal event-time column and both pulled
fields. -/
theorem C5_join_batching_witness :
    (alistKeys wSt5.rightTables).Nodup
    ∧ (∃ inner, alistLookup wSt5.rightTables ("right", ["k"]) = some inner
        ∧ "k" ∈ alistKeys inner
        ∧ "rts" ∈ alistKeys inner
        ∧ EVENT_TIME_ATTRIBUTE_NAME ∈ alistKeys inner
        ∧ "price" ∈ alistKeys inner
        ∧ "cost" ∈ alistKeys inner) := by
  have hp : processDerivedFeatures wDispatchCtx [wJF1, wJF2]
      (initialDispatchState wSrcT) = .ok wSt5 := by decide
  have h := C5_join_batching wDispatchCtx [wJF1, wJF2] wSrcT wSt5 hp
  refine ⟨h.1, ?_⟩
  obtain ⟨inner, hin, hks, hts, hev, hfn⟩ :=
    h.2.2.2 ⟨"right", ["k"], "rts", "price", wRightDesc⟩ (by decide)
  obtain ⟨inner2, hin2, hks2, hts2, hev2, hfn2⟩ :=
    h.2.2.2 ⟨"right", ["k"], "rts", "cost", wRightDesc⟩ (by decide)
  have heq : (some inner : Option (List (String × JoinFieldDescriptor)))
      = some inner2 := hin.symm.trans hin2
  injection heq with heq
  subst heq
  exact ⟨inner, hin, hks "k" (by decide), hts, hev, hfn, hfn2⟩

/-- C6: within one derived-view compilation, the over-window batches are keyed
by the `OverWindowDescriptor` with no duplicate key, the batch of a descriptor
is exactly the list of `AggregationFieldDescriptor`s of all dispatched
over-window features whose transform yields that descriptor (in dispatch
order), and exactly one aggregation call is issued per batch, receiving the
batch's full list. -/
theorem C6_window_batching (c : DerivedDispatchCtx) (fs : List Feature)
    (tmp : NativeFlinkTable) (st' : DispatchState)
    (h : processDerivedFeatures c fs (initialDispatchState tmp) = .ok st') :
    (alistKeys st'.windowAggMap).Nodup
    ∧ (∀ d : OverWindowDescriptor,
        alistLookup st'.windowAggMap d
          = if (pairsValuesAt (owDispatches c fs tmp) d).isEmpty then none
            else some (pairsValuesAt (owDispatches c fs tmp) d))
    ∧ (∀ t : NativeFlinkTable,
        (applyOverWindowAggs st'.windowAggMap t).2
          = st'.windowAggMap.map (fun e => BuilderEvent.overWindowCall e.1 e.2)) := by
  obtain ⟨hw, _⟩ := processDerivedFeatures_maps c fs _ _ h
  simp only [initialDispatchState] at hw
  refine ⟨?_, ?_, ?_⟩
  · rw [hw]
    exact foldl_dictListAppend_keys_nodup _ [] (by simp [alistKeys])
  · intro d
    rw [hw]
    exact foldl_dictListAppend_lookup_none _ [] d rfl
  · intro t
    exact applyOverWindowAggs_events _ t

/-- Two over-window features whose transforms share the same window shape
(same group-by keys, window size and limit) but different aggregations. -/
def owT1 : OverWindowTransform := ⟨"spend", "SUM", ["user_id"], none, none⟩

def owT2 : OverWindowTransform := ⟨"spend", "MAX", ["user_id"], none, none⟩

def wOF1 : Feature := .mk "total_spend" .int64 (.overWindow owT1) none []

def wOF2 : Feature := .mk "max_spend" .int64 (.overWindow owT2) none []

def wOWDesc : OverWindowDescriptor := ⟨none, none, ["user_id"]⟩

/-- The dispatch state after dispatching `wOF1` and `wOF2`: one window batch
holding both aggregation descriptors. -/
def wSt6 : DispatchState :=
  ⟨wSrcT,
    [(wOWDesc, [AggregationFieldDescriptor.from_feature wOF1,
      AggregationFieldDescriptor.from_feature wOF2])], [], []⟩

/-- C6 (witness): the two fixture features land in one batch under their
shared descriptor, and the issuing loop emits exactly one call carrying both
descriptors. -/
theorem C6_window_batching_witness :
    alistLookup wSt6.windowAggMap wOWDesc
      = some [AggregationFieldDescriptor.from_feature wOF1,
          AggregationFieldDescriptor.from_feature wOF2]
    ∧ (applyOverWindowAggs wSt6.windowAggMap wSrcT).2
      = [BuilderEvent.overWindowCall wOWDesc
          [AggregationFieldDescriptor.from_feature wOF1,
           AggregationFieldDescriptor.from_feature wOF2]] := by
  have hp : processDerivedFeatures wDispatchCtx [wOF1, wOF2]
      (initialDispatchState wSrcT) = .ok wSt6 := by decide
  have h := C6_window_batching wDispatchCtx [wOF1, wOF2] wSrcT wSt6 hp
  constructor
  · rw [h.2.1 wOWDesc]
    decide
  · rw [h.2.2 wSrcT]
    decide

end Feathub
